import Mathlib

/-!
Verification of the gts location algebra and feature-table engine.

Shallow embedding of the Go sources (`location.go`, the feature-table file,
and the flags package) of the `gts` repository, together with proofs about
the claims of the specification.

Conventions of the embedding:
* Go `int` is modelled as `Int` (no arithmetic in the claims approaches the
  64-bit boundary, so overflow is not modelled).
* Go strings and parser input are modelled as `List Char` (the inputs are
  ASCII).
* A Go method that mutates its receiver and returns `bool` is modelled as a
  pure function returning the new value paired with the `Bool`.
* Go `panic` branches are modelled by a separate decidable definedness
  predicate (`mapDefB`); the total Lean function returns a junk value on the
  branches where Go would panic, and every theorem that depends on those
  values carries the definedness hypothesis.
-/

namespace Gts

/-- The `Location` interface of `location.go` realised as a sum type: the
seven concrete implementations `PointLocation`, `RangeLocation`,
`AmbiguousLocation`, `BetweenLocation`, `ComplementLocation`,
`JoinLocation`, `OrderLocation`.  Field names follow the Go structs
(`stop` stands for the Go field `End`, a reserved word in Lean). -/
inductive Location where
  | point (position : Int)
  | range (start stop : Int) (partial5 partial3 : Bool)
  | ambiguous (start stop : Int)
  | between (start stop : Int)
  | complement (loc : Location)
  | join (locs : List Location)
  | order (locs : List Location)

namespace Location

/-- Structural size of a location tree, used for strong induction (the
nested `List Location` fields prevent the derived recursor from being used
directly by the `induction` tactic). -/
def locSize : Location → Nat
  | .point _ => 1
  | .range _ _ _ _ => 1
  | .ambiguous _ _ => 1
  | .between _ _ => 1
  | .complement l => locSize l + 1
  | .join ls => locSizeList ls + 1
  | .order ls => locSizeList ls + 1
where
  locSizeList : List Location → Nat
  | [] => 0
  | l :: t => locSize l + locSizeList t + 1

theorem locSize_lt_of_mem {x : Location} {ls : List Location} (h : x ∈ ls) :
    locSize x < locSize.locSizeList ls + 1 := by
  induction ls with
  | nil => cases h
  | cons y t ih =>
    rcases List.mem_cons.mp h with rfl | hx
    · simp only [locSize.locSizeList]; omega
    · have := ih hx
      simp only [locSize.locSizeList]; omega

/-- Induction principle for `Location` that hands the hypothesis for every
member of a `join`/`order` child list. -/
theorem inductionOn {P : Location → Prop}
    (hp : ∀ p, P (.point p))
    (hr : ∀ s e p5 p3, P (.range s e p5 p3))
    (ha : ∀ s e, P (.ambiguous s e))
    (hb : ∀ s e, P (.between s e))
    (hc : ∀ l, P l → P (.complement l))
    (hj : ∀ ls, (∀ l ∈ ls, P l) → P (.join ls))
    (ho : ∀ ls, (∀ l ∈ ls, P l) → P (.order ls)) :
    ∀ l, P l := by
  intro l
  generalize hn : locSize l = n
  induction n using Nat.strong_induction_on generalizing l with
  | _ n ih =>
    subst hn
    cases l with
    | point p => exact hp p
    | range s e p5 p3 => exact hr s e p5 p3
    | ambiguous s e => exact ha s e
    | between s e => exact hb s e
    | complement m =>
      exact hc m (ih (locSize m) (by simp [locSize]) m rfl)
    | join ls =>
      exact hj ls (fun x hx => ih (locSize x) (by simpa [locSize] using locSize_lt_of_mem hx) x rfl)
    | order ls =>
      exact ho ls (fun x hx => ih (locSize x) (by simpa [locSize] using locSize_lt_of_mem hx) x rfl)

/-- Boolean equality on location trees (the derived `DecidableEq` is not
available for a nested inductive). -/
def beqLoc : Location → Location → Bool
  | .point p, .point q => p == q
  | .range s e p5 p3, .range s' e' p5' p3' => s == s' && e == e' && p5 == p5' && p3 == p3'
  | .ambiguous s e, .ambiguous s' e' => s == s' && e == e'
  | .between s e, .between s' e' => s == s' && e == e'
  | .complement l, .complement m => beqLoc l m
  | .join ls, .join ms => beqList ls ms
  | .order ls, .order ms => beqList ls ms
  | _, _ => false
where
  beqList : List Location → List Location → Bool
  | [], [] => true
  | l :: t, m :: u => beqLoc l m && beqList t u
  | _, _ => false

theorem beqLoc_iff : ∀ a b : Location, beqLoc a b = true ↔ a = b := by
  have main : ∀ a : Location,
      (∀ b, beqLoc a b = true ↔ a = b) := by
    intro a
    induction a using inductionOn with
    | hp p => intro b; cases b <;> simp [beqLoc]
    | hr s e p5 p3 =>
      intro b; cases b <;> simp [beqLoc] <;> tauto
    | ha s e => intro b; cases b <;> simp [beqLoc]
    | hb s e => intro b; cases b <;> simp [beqLoc]
    | hc l ih => intro b; cases b <;> simp [beqLoc, ih]
    | hj ls ih =>
      intro b
      cases b <;> simp only [beqLoc] <;> try simp
      case join ms =>
        induction ls generalizing ms with
        | nil => cases ms <;> simp [beqLoc.beqList]
        | cons x t iht =>
          cases ms with
          | nil => simp [beqLoc.beqList]
          | cons y u =>
            simp only [beqLoc.beqList, Bool.and_eq_true]
            have hx := ih x (by simp)
            have ht := iht (fun z hz => ih z (by simp [hz])) u
            simp only [List.cons.injEq]
            constructor
            · rintro ⟨h1, h2⟩
              exact ⟨(hx y).mp h1, by simpa using ht.mp h2⟩
            · rintro ⟨rfl, rfl⟩
              exact ⟨(hx x).mpr rfl, by simpa using ht.mpr rfl⟩
    | ho ls ih =>
      intro b
      cases b <;> simp only [beqLoc] <;> try simp
      case order ms =>
        induction ls generalizing ms with
        | nil => cases ms <;> simp [beqLoc.beqList]
        | cons x t iht =>
          cases ms with
          | nil => simp [beqLoc.beqList]
          | cons y u =>
            simp only [beqLoc.beqList, Bool.and_eq_true]
            have hx := ih x (by simp)
            have ht := iht (fun z hz => ih z (by simp [hz])) u
            simp only [List.cons.injEq]
            constructor
            · rintro ⟨h1, h2⟩
              exact ⟨(hx y).mp h1, by simpa using ht.mp h2⟩
            · rintro ⟨rfl, rfl⟩
              exact ⟨(hx x).mpr rfl, by simpa using ht.mpr rfl⟩
  exact main

instance : DecidableEq Location := fun a b =>
  decidable_of_iff (beqLoc a b = true) (beqLoc_iff a b)

/-- Go `Len` of each variant (`location.go`): 1 for a point, `End - Start` for
the interval variants, the inner length for a complement, and the sum of the
children's lengths for `join`/`order`. -/
def lenLoc : Location → Int
  | .point _ => 1
  | .range s e _ _ => e - s
  | .ambiguous s e => e - s
  | .between s e => e - s
  | .complement l => lenLoc l
  | .join ls => lenList ls
  | .order ls => lenList ls
where
  /-- The accumulation loop of `JoinLocation.Len` / `OrderLocation.Len`. -/
  lenList : List Location → Int
  | [] => 0
  | l :: t => lenLoc l + lenList t

/-- Go `Map` of each variant (`location.go`): a point maps every index to its
position, the interval variants map `i` to `Start + i`, a complement
delegates, and `join`/`order` walk their children subtracting each child's
length.  The Go code panics on an out-of-range index; this total model
returns the value of the non-panicking branch (for the scalar variants the
returned expression does not depend on the guard) and `0` where the Go walk
would fall through; `mapDefB` delimits the panic-free domain. -/
def mapLoc : Location → Int → Int
  | .point p, _ => p
  | .range s _ _ _, i => s + i
  | .ambiguous s _, i => s + i
  | .between s _, i => s + i
  | .complement l, i => mapLoc l i
  | .join ls, i => mapList ls i
  | .order ls, i => mapList ls i
where
  /-- The walk of `JoinLocation.Map` / `OrderLocation.Map`. -/
  mapList : List Location → Int → Int
  | [], _ => 0
  | l :: t, i => if i < lenLoc l then mapLoc l i else mapList t (i - lenLoc l)

/-- The panic-free domain of `Map`: the Go code panics on a negative index,
on an index at or beyond `Len`, and in the `join`/`order` walk when the loop
falls through. -/
def mapDefB : Location → Int → Bool
  | .point _, i => 0 ≤ i && i < 1
  | .range s e _ _, i => 0 ≤ i && i < e - s
  | .ambiguous s e, i => 0 ≤ i && i < e - s
  | .between s e, i => 0 ≤ i && i < e - s
  | .complement l, i => mapDefB l i
  | .join ls, i => 0 ≤ i && mapDefList ls i
  | .order ls, i => 0 ≤ i && mapDefList ls i
where
  mapDefList : List Location → Int → Bool
  | [], _ => false
  | l :: t, i => if i < lenLoc l then mapDefB l i else mapDefList t (i - lenLoc l)

end Location

open Location

/-- Go `shiftRange` of `location.go`, verbatim: the primitive shift rule on an
interval `[a, b)` for an edit at offset `i` of signed amount `n`. -/
def shiftRange (a b i n : Int) : Int × Int × Bool :=
  if 0 < n then
    ((if i ≤ a then a + n else a), (if i ≤ b then b + n else b), true)
  else if n < 0 then
    let c := if i - n ≤ a then a + n else a
    let d := if i - n ≤ b then b + n else b
    if c < d - 1 then (c, d, true) else (a, b, false)
  else (a, b, true)

namespace Location

/-- Go `Shift` of each variant (`location.go`): the point rule, the
`shiftRange` rule for the three interval variants, delegation for a
complement, and the fan-out of `JoinLocation.Shift` / `OrderLocation.Shift`
which shifts every child and ANDs the results. -/
def shiftLoc : Location → Int → Int → Location × Bool
  | .point p, o, n =>
    if n = 0 ∨ p < o then (.point p, true)
    else if n < 0 ∧ p < o - n then (.point p, false)
    else (.point (p + n), true)
  | .range s e p5 p3, o, n =>
    let r := shiftRange s e o n
    (.range r.1 r.2.1 p5 p3, r.2.2)
  | .ambiguous s e, o, n =>
    let r := shiftRange s e o n
    (.ambiguous r.1 r.2.1, r.2.2)
  | .between s e, o, n =>
    let r := shiftRange s e o n
    (.between r.1 r.2.1, r.2.2)
  | .complement l, o, n =>
    let r := shiftLoc l o n
    (.complement r.1, r.2)
  | .join ls, o, n =>
    let r := shiftList ls o n
    (.join r.1, r.2)
  | .order ls, o, n =>
    let r := shiftList ls o n
    (.order r.1, r.2)
where
  /-- The loop of `JoinLocation.Shift` / `OrderLocation.Shift`: every child
  is shifted (and mutated) regardless of failures; the result is `false` as
  soon as one child reports `false`. -/
  shiftList : List Location → Int → Int → List Location × Bool
  | [], _, _ => ([], true)
  | l :: t, o, n =>
    let r := shiftLoc l o n
    let rs := shiftList t o n
    (r.1 :: rs.1, r.2 && rs.2)

end Location

/-- Go `LocationLess` of `location.go`, verbatim: compare `Map 0`, then
`Map (Len - 1)`, ties compare equal. -/
def locationLess (a b : Location) : Bool :=
  if mapLoc a 0 < mapLoc b 0 then true
  else if mapLoc b 0 < mapLoc a 0 then false
  else if mapLoc a (lenLoc a - 1) < mapLoc b (lenLoc b - 1) then true
  else if mapLoc b (lenLoc b - 1) < mapLoc a (lenLoc a - 1) then false
  else false

/-- The four scalar location variants (everything except `complement`,
`join` and `order`). -/
def scalarVariant : Location → Bool
  | .point _ => true
  | .range _ _ _ _ => true
  | .ambiguous _ _ => true
  | .between _ _ => true
  | _ => false

/-! ## Shift lemmas -/

theorem pairEq {α β : Type} {a c : α} {b d : β} (h : (a, b) = (c, d)) : a = c ∧ b = d := by
  cases h; exact ⟨rfl, rfl⟩

theorem shiftRange_pos (a b i n : Int) (hn : 0 < n) :
    shiftRange a b i n = ((if i ≤ a then a + n else a), (if i ≤ b then b + n else b), true) := by
  simp [shiftRange, hn]

theorem shiftRange_inv (a b i n : Int) (hn : 0 < n) :
    shiftRange (if i ≤ a then a + n else a) (if i ≤ b then b + n else b) i (-n) =
      if a < b - 1 then (a, b, true)
      else ((if i ≤ a then a + n else a), (if i ≤ b then b + n else b), false) := by
  have h1 : ¬ (0:Int) < -n := by omega
  have h2 : -n < 0 := by omega
  simp only [shiftRange, h1, if_false, h2, if_true]
  have hc : (if i - -n ≤ (if i ≤ a then a + n else a) then (if i ≤ a then a + n else a) + -n
      else (if i ≤ a then a + n else a)) = a := by
    split_ifs <;> omega
  have hd : (if i - -n ≤ (if i ≤ b then b + n else b) then (if i ≤ b then b + n else b) + -n
      else (if i ≤ b then b + n else b)) = b := by
    split_ifs <;> omega
  rw [hc, hd]

/-- The loop of `JoinLocation.Shift`/`OrderLocation.Shift` undoes itself:
if shifting every child of a list by `+n` and then by `-n` reports success
both times, the original children are restored (given the statement for
every member). -/
theorem shiftList_inv (o n : Int) :
    ∀ ls ls1 ls2,
      (∀ l ∈ ls, ∀ L1 L2, shiftLoc l o n = (L1, true) →
        shiftLoc L1 o (-n) = (L2, true) → L2 = l) →
      shiftLoc.shiftList ls o n = (ls1, true) →
      shiftLoc.shiftList ls1 o (-n) = (ls2, true) → ls2 = ls := by
  intro ls
  induction ls with
  | nil =>
    intro ls1 ls2 _ h1 h2
    simp only [shiftLoc.shiftList] at h1
    obtain ⟨rfl, -⟩ := Prod.mk.injEq .. ▸ h1
    simp only [shiftLoc.shiftList] at h2
    obtain ⟨rfl, -⟩ := Prod.mk.injEq .. ▸ h2
    rfl
  | cons l t ih =>
    intro ls1 ls2 hmem h1 h2
    simp only [shiftLoc.shiftList] at h1
    have h1' := congrArg Prod.fst h1
    have h1'' := congrArg Prod.snd h1
    simp only at h1' h1''
    rw [Bool.and_eq_true] at h1''
    subst h1'
    simp only [shiftLoc.shiftList] at h2
    have h2' := congrArg Prod.fst h2
    have h2'' := congrArg Prod.snd h2
    simp only at h2' h2''
    rw [Bool.and_eq_true] at h2''
    subst h2'
    have hl := hmem l (by simp) (shiftLoc l o n).1 (shiftLoc (shiftLoc l o n).1 o (-n)).1
      (by rw [Prod.ext_iff]; exact ⟨rfl, h1''.1⟩)
      (by rw [Prod.ext_iff]; exact ⟨rfl, h2''.1⟩)
    have ht := ih (shiftLoc.shiftList t o n).1 (shiftLoc.shiftList (shiftLoc.shiftList t o n).1 o (-n)).1
      (fun x hx => hmem x (by simp [hx]))
      (by rw [Prod.ext_iff]; exact ⟨rfl, h1''.2⟩)
      (by rw [Prod.ext_iff]; exact ⟨rfl, h2''.2⟩)
    rw [hl, ht]

/-- Claim C2: For every location `L`, offset `o` and amount `n > 0`, if
`L.Shift(o, +n)` succeeds yielding `L1` and `L1.Shift(o, −n)` succeeds
yielding `L2`, then `L2 = L`: the composed shifts are an identity on the
location. -/
theorem shift_inverse (L : Location) (o n : Int) (hn : 0 < n) (L1 L2 : Location)
    (h1 : shiftLoc L o n = (L1, true)) (h2 : shiftLoc L1 o (-n) = (L2, true)) :
    L2 = L := by
  induction L using Location.inductionOn generalizing L1 L2 with
  | hp p =>
    simp only [shiftLoc] at h1
    by_cases hpo : p < o
    · rw [if_pos (Or.inr hpo)] at h1
      obtain ⟨rfl, -⟩ := Prod.mk.injEq .. ▸ h1.symm
      simp only [shiftLoc] at h2
      rw [if_pos (Or.inr hpo)] at h2
      obtain ⟨rfl, -⟩ := Prod.mk.injEq .. ▸ h2.symm
      rfl
    · rw [if_neg (by omega), if_neg (by omega)] at h1
      obtain ⟨rfl, -⟩ := Prod.mk.injEq .. ▸ h1.symm
      simp only [shiftLoc] at h2
      rw [if_neg (by omega), if_neg (by omega)] at h2
      obtain ⟨rfl, -⟩ := Prod.mk.injEq .. ▸ h2.symm
      congr 1
      omega
  | hr s e p5 p3 =>
    simp only [shiftLoc, shiftRange_pos _ _ _ _ hn] at h1
    have hL1 := (pairEq h1).1
    subst hL1
    simp only [shiftLoc, shiftRange_inv _ _ _ _ hn] at h2
    by_cases hse : s < e - 1
    · rw [if_pos hse] at h2
      exact ((pairEq h2).1).symm
    · rw [if_neg hse] at h2
      have := (pairEq h2).2
      simp at this
  | ha s e =>
    simp only [shiftLoc, shiftRange_pos _ _ _ _ hn] at h1
    have hL1 := (pairEq h1).1
    subst hL1
    simp only [shiftLoc, shiftRange_inv _ _ _ _ hn] at h2
    by_cases hse : s < e - 1
    · rw [if_pos hse] at h2
      exact ((pairEq h2).1).symm
    · rw [if_neg hse] at h2
      have := (pairEq h2).2
      simp at this
  | hb s e =>
    simp only [shiftLoc, shiftRange_pos _ _ _ _ hn] at h1
    have hL1 := (pairEq h1).1
    subst hL1
    simp only [shiftLoc, shiftRange_inv _ _ _ _ hn] at h2
    by_cases hse : s < e - 1
    · rw [if_pos hse] at h2
      exact ((pairEq h2).1).symm
    · rw [if_neg hse] at h2
      have := (pairEq h2).2
      simp at this
  | hc l ih =>
    simp only [shiftLoc] at h1
    have h1' := congrArg Prod.fst h1
    have h1'' := congrArg Prod.snd h1
    simp only at h1' h1''
    subst h1'
    simp only [shiftLoc] at h2
    have h2' := congrArg Prod.fst h2
    have h2'' := congrArg Prod.snd h2
    simp only at h2' h2''
    subst h2'
    have := ih (shiftLoc l o n).1 (shiftLoc (shiftLoc l o n).1 o (-n)).1
      (by rw [Prod.ext_iff]; exact ⟨rfl, h1''⟩)
      (by rw [Prod.ext_iff]; exact ⟨rfl, h2''⟩)
    rw [this]
  | hj ls ih =>
    simp only [shiftLoc] at h1
    have h1' := congrArg Prod.fst h1
    have h1'' := congrArg Prod.snd h1
    simp only at h1' h1''
    subst h1'
    simp only [shiftLoc] at h2
    have h2' := congrArg Prod.fst h2
    have h2'' := congrArg Prod.snd h2
    simp only at h2' h2''
    subst h2'
    have := shiftList_inv o n ls (shiftLoc.shiftList ls o n).1
      (shiftLoc.shiftList (shiftLoc.shiftList ls o n).1 o (-n)).1
      (fun x hx => ih x hx)
      (by rw [Prod.ext_iff]; exact ⟨rfl, h1''⟩)
      (by rw [Prod.ext_iff]; exact ⟨rfl, h2''⟩)
    rw [this]
  | ho ls ih =>
    simp only [shiftLoc] at h1
    have h1' := congrArg Prod.fst h1
    have h1'' := congrArg Prod.snd h1
    simp only at h1' h1''
    subst h1'
    simp only [shiftLoc] at h2
    have h2' := congrArg Prod.fst h2
    have h2'' := congrArg Prod.snd h2
    simp only at h2' h2''
    subst h2'
    have := shiftList_inv o n ls (shiftLoc.shiftList ls o n).1
      (shiftLoc.shiftList (shiftLoc.shiftList ls o n).1 o (-n)).1
      (fun x hx => ih x hx)
      (by rw [Prod.ext_iff]; exact ⟨rfl, h1''⟩)
      (by rw [Prod.ext_iff]; exact ⟨rfl, h2''⟩)
    rw [this]

/-- Witness for `shift_inverse` at `L = 0..5`, `o = 2`, `n = 3`. -/
theorem shift_inverse_witness :
    (0:Int) < 3 ∧ ((Location.range 0 5 false false) : Location) =
      (Location.range 0 5 false false) := by
  refine ⟨by norm_num, ?_⟩
  have := shift_inverse (.range 0 5 false false) 2 3 (by norm_num)
    (.range 0 8 false false) (.range 0 5 false false) (by decide) (by decide)
  exact this ▸ rfl

/-- Claim C5: For `amount < 0` on an interval `[a, b)`: with `c` the start
decreased by `|amount|` exactly when `offset − amount ≤ a` (likewise `d`
from `b`), the shift is valid iff `c < d − 1` (at least two bases remain),
it then returns `(c, d)`, and on failure the `AmbiguousLocation` keeps its
original `a` and `b`. -/
theorem shiftRange_neg_spec (a b i n : Int) (h : n < 0) :
    ((shiftRange a b i n).2.2 = true ↔
      (if i - n ≤ a then a + n else a) < (if i - n ≤ b then b + n else b) - 1) ∧
    ((shiftRange a b i n).2.2 = true →
      shiftRange a b i n =
        ((if i - n ≤ a then a + n else a), (if i - n ≤ b then b + n else b), true)) ∧
    ((shiftRange a b i n).2.2 = false →
      shiftLoc (.ambiguous a b) i n = (.ambiguous a b, false)) := by
  have h1 : ¬ (0:Int) < n := by omega
  simp only [shiftRange, shiftLoc, h1, if_false, h, if_true]
  split_ifs <;> simp_all

/-- Witness for `shiftRange_neg_spec` at `a = 5, b = 15, i = 11, n = -5`
(the boundary case of the `Delete` scenario). -/
theorem shiftRange_neg_spec_witness :
    (-5 : Int) < 0 ∧ (shiftRange 5 15 11 (-5)).2.2 = true := by
  refine ⟨by norm_num, ?_⟩
  have := (shiftRange_neg_spec 5 15 11 (-5) (by norm_num)).1
  rw [this]
  norm_num

/-- Claim C6 counterexample: `Order([point 5, point 0])` is a non-Complement,
non-Join location whose `Map` is not strictly increasing: indices `0 < 1`
are both inside the panic-free domain, yet `Map 0 = 5 > Map 1 = 0`. -/
theorem map_monotone_counterexample :
    scalarVariant (Location.order [.point 5, .point 0]) = false ∧
    (0:Int) ≤ 0 ∧ (0:Int) < 1 ∧ (1:Int) < lenLoc (Location.order [.point 5, .point 0]) ∧
    mapDefB (Location.order [.point 5, .point 0]) 0 = true ∧
    mapDefB (Location.order [.point 5, .point 0]) 1 = true ∧
    ¬ mapLoc (Location.order [.point 5, .point 0]) 0 <
      mapLoc (Location.order [.point 5, .point 0]) 1 := by
  decide

/-- Claim C6 amended: For the non-Complement, non-Join, non-Order (scalar)
locations, `Map` is strictly increasing on the domain `0 ≤ i < Len`. -/
theorem map_strict_mono (L : Location) (hL : scalarVariant L = true)
    (i j : Int) (hi : 0 ≤ i) (hij : i < j) (hj : j < lenLoc L) :
    mapLoc L i < mapLoc L j := by
  cases L with
  | point p => simp only [lenLoc] at hj; omega
  | range s e p5 p3 => simp only [mapLoc]; omega
  | ambiguous s e => simp only [mapLoc]; omega
  | between s e => simp only [mapLoc]; omega
  | complement l => simp [scalarVariant] at hL
  | join ls => simp [scalarVariant] at hL
  | order ls => simp [scalarVariant] at hL

/-- Witness for `map_strict_mono` at the range `[2, 9)`, indices `1 < 4`. -/
theorem map_strict_mono_witness :
    scalarVariant (Location.range 2 9 false false) = true ∧
    mapLoc (Location.range 2 9 false false) 1 < mapLoc (Location.range 2 9 false false) 4 := by
  exact ⟨by decide, map_strict_mono (.range 2 9 false false) (by decide) 1 4
    (by norm_num) (by norm_num) (by decide)⟩

/-- Go `LocationLess` is the strict lexicographic comparison of the pairs
`(Map 0, Map (Len − 1))`. -/
theorem locationLess_eq_true_iff (a b : Location) :
    locationLess a b = true ↔
      (mapLoc a 0 < mapLoc b 0 ∨
        (mapLoc a 0 = mapLoc b 0 ∧
          mapLoc a (lenLoc a - 1) < mapLoc b (lenLoc b - 1))) := by
  simp only [locationLess]
  split_ifs <;> simp <;> omega

theorem locationLess_eq_false_iff (a b : Location) :
    locationLess a b = false ↔
      ¬(mapLoc a 0 < mapLoc b 0 ∨
        (mapLoc a 0 = mapLoc b 0 ∧
          mapLoc a (lenLoc a - 1) < mapLoc b (lenLoc b - 1))) := by
  rw [← locationLess_eq_true_iff]
  cases locationLess a b <;> simp

/-- Claim C10: `LocationLess` is irreflexive and asymmetric on positive-length
locations, and two locations with equal first and last mapped coordinates
compare equal (both directions return `false`), so it is a valid strict
ordering for the feature-table sort. -/
theorem locationLess_strict :
    (∀ a : Location, 0 < lenLoc a → locationLess a a = false) ∧
    (∀ a b : Location, 0 < lenLoc a → 0 < lenLoc b →
      ¬(locationLess a b = true ∧ locationLess b a = true)) ∧
    (∀ a b : Location, mapLoc a 0 = mapLoc b 0 →
      mapLoc a (lenLoc a - 1) = mapLoc b (lenLoc b - 1) →
      locationLess a b = false ∧ locationLess b a = false) := by
  refine ⟨?_, ?_, ?_⟩
  · intro a _
    rw [locationLess_eq_false_iff]
    omega
  · intro a b _ _ ⟨hab, hba⟩
    rw [locationLess_eq_true_iff] at hab hba
    omega
  · intro a b h0 h1
    rw [locationLess_eq_false_iff, locationLess_eq_false_iff]
    omega

/-- Witness for `locationLess_strict` on two concrete positive-length
locations. -/
theorem locationLess_strict_witness :
    locationLess (Location.range 3 7 false false) (Location.range 3 7 false false) = false ∧
    ¬(locationLess (Location.range 3 7 false false) (Location.point 5) = true ∧
      locationLess (Location.point 5) (Location.range 3 7 false false) = true) := by
  refine ⟨?_, ?_⟩
  · exact locationLess_strict.1 (.range 3 7 false false) (by decide)
  · exact locationLess_strict.2.1 (.range 3 7 false false) (.point 5) (by decide) (by decide)

/-! ## Strings, digits, and the display (`String()`) functions -/

def isDigitC (c : Char) : Bool := 48 ≤ c.toNat && c.toNat ≤ 57

def digitVal (c : Char) : Nat := c.toNat - 48

/-- Decimal digits of `n`, most significant first (the digits emitted by
`strconv.Itoa` / `fmt.Sprintf("%d")` for a non-negative value). -/
def natChars (n : Nat) : List Char :=
  if _h : n < 10 then [Char.ofNat (48 + n)]
  else natChars (n / 10) ++ [Char.ofNat (48 + n % 10)]
decreasing_by exact Nat.div_lt_self (by omega) (by norm_num)

/-- Go `strconv.Itoa` on a Go `int`. -/
def intChars (i : Int) : List Char :=
  if i < 0 then '-' :: natChars (-i).toNat else natChars i.toNat

/-- Value of a run of decimal digits (most significant first). -/
def natVal (l : List Char) : Nat := l.foldl (fun a c => a * 10 + digitVal c) 0

/-- The literal `"complement("`. -/
def complementLit : List Char := ['c', 'o', 'm', 'p', 'l', 'e', 'm', 'e', 'n', 't', '(']

/-- The literal `"join("`. -/
def joinLit : List Char := ['j', 'o', 'i', 'n', '(']

/-- The literal `"order("`. -/
def orderLit : List Char := ['o', 'r', 'd', 'e', 'r', '(']

namespace Location

/-- Go `String()` of each variant (`location.go`), verbatim: points print
`Position+1`; ranges print `[<]Start+1..[>]End`; ambiguous `Start+1.End`;
between `Start+1^End`; `complement(...)`, `join(...)` and `order(...)` wrap
their children, the latter two comma-separated (`strings.Join`). -/
def display : Location → List Char
  | .point p => intChars (p + 1)
  | .range s e p5 p3 =>
      (if p5 then ['<'] else []) ++ intChars (s + 1) ++ ['.', '.'] ++
        (if p3 then ['>'] else []) ++ intChars e
  | .ambiguous s e => intChars (s + 1) ++ ['.'] ++ intChars e
  | .between s e => intChars (s + 1) ++ ['^'] ++ intChars e
  | .complement l => complementLit ++ display l ++ [')']
  | .join ls => joinLit ++ displayList ls ++ [')']
  | .order ls => orderLit ++ displayList ls ++ [')']
where
  /-- `strings.Join(tmp, ",")` over the children's strings. -/
  displayList : List Location → List Char
  | [] => []
  | [l] => display l
  | l :: x :: t => display l ++ [','] ++ displayList (x :: t)

/-- Well-formedness domain for the parser round-trip: every displayed
integer is non-negative (the flat-file grammar's `integer` token is an
unsigned digit run) and every `join`/`order` node has at least one child
(the grammar requires `loc (',' loc)*` between the parentheses). -/
def wfB : Location → Bool
  | .point p => decide (0 ≤ p + 1)
  | .range s e _ _ => decide (0 ≤ s + 1) && decide (0 ≤ e)
  | .ambiguous s e => decide (0 ≤ s + 1) && decide (0 ≤ e)
  | .between s e => decide (0 ≤ s + 1) && decide (0 ≤ e)
  | .complement l => wfB l
  | .join ls => !ls.isEmpty && wfList ls
  | .order ls => !ls.isEmpty && wfList ls
where
  wfList : List Location → Bool
  | [] => true
  | l :: t => wfB l && wfList t

end Location

/-! ## The location parser

The Go parsers are `pars.v2` parser functions over a backtracking cursor
state; each alternative restores the cursor on failure (`Push`/`Pop`), so
the embedding models a parser as a pure function from the remaining input
to `Option (result × remaining input)`, `none` being a parse error.  The
primitives of the external `pars` library are modelled as follows:
`pars.Next` peeks one character (failing on empty input, in which case the
returned byte is the zero value, never `'>'`); `state.Request(n)` together
with the `bytes.Equal` check and `Advance` is `expectLit`; `pars.Int` is a
maximal run of decimal digits (the `integer` token of the flat-file
grammar). -/

/-- The external `pars.Int`: a maximal non-empty run of decimal digits. -/
def parseNat (s : List Char) : Option (Nat × List Char) :=
  let ds := s.takeWhile isDigitC
  if ds.isEmpty then none else some (natVal ds, s.drop ds.length)

/-- Go `pars.Int` as used by the location parsers, producing a Go `int`. -/
def parsInt (s : List Char) : Option (Int × List Char) :=
  match parseNat s with
  | none => none
  | some (n, r) => some ((n : Int), r)

/-- Go `state.Request(lit.length)` + `bytes.Equal(state.Buffer(), lit)` +
`state.Advance()`: match a literal and advance past it. -/
def expectLit (lit : List Char) (s : List Char) : Option (List Char) :=
  if s.take lit.length = lit then some (s.drop lit.length) else none

/-- Go `ascii.IsSpace`. -/
def isSpaceC (c : Char) : Bool :=
  c = ' ' || c = '\t' || c = '\n' || c = '\x0b' || c = '\x0c' || c = '\r'

/-- Go `PointLocationParser`: an integer `n` yields `Point(n−1)`. -/
def parsePoint (s : List Char) : Option (Location × List Char) :=
  match parsInt s with
  | none => none
  | some (n, r) => some (.point (n - 1), r)

/-- The `partial3` peek of `RangeLocationParser` (lines 488–493 of
`location.go`): peek one character with the error ignored (`pars.Next`
yields the zero byte on empty input, which is not `'>'`); if it is `'>'`,
record the 3'-partial flag and advance. -/
def parseRangeGt (s3 : List Char) : Bool × List Char :=
  match s3 with
  | c :: t => if c = '>' then (true, t) else (false, c :: t)
  | [] => (false, [])

/-- Go `RangeLocationParser`: `['<'] integer '..' ['>'] integer`.  The Go code
has a final branch accepting a trailing `'>'` guarded by
`err != nil && c == '>'`; since `pars.Next` returns the zero byte whenever
it returns an error, that branch can never be taken and is therefore not
part of the model. -/
def parseRange (s : List Char) : Option (Location × List Char) :=
  match s with
  | [] => none
  | c0 :: rest =>
    let s1 := if c0 = '<' then rest else s
    let p5 := c0 = '<'
    match parsInt s1 with
    | none => none
    | some (sv, s2) =>
      match s2 with
      | c1 :: c2 :: s3 =>
        if c1 = '.' ∧ c2 = '.' then
          let pr := parseRangeGt s3
          match parsInt pr.2 with
          | none => none
          | some (ev, s5) => some (.range (sv - 1) ev p5 pr.1, s5)
        else none
      | _ => none

/-- Go `AmbiguousLocationParser`: `integer '.' integer`. -/
def parseAmbiguous (s : List Char) : Option (Location × List Char) :=
  match parsInt s with
  | none => none
  | some (sv, s1) =>
    match s1 with
    | c :: s2 =>
      if c = '.' then
        match parsInt s2 with
        | none => none
        | some (ev, s3) => some (.ambiguous (sv - 1) ev, s3)
      else none
    | [] => none

/-- Go `BetweenLocationParser`: `integer '^' integer`. -/
def parseBetween (s : List Char) : Option (Location × List Char) :=
  match parsInt s with
  | none => none
  | some (sv, s1) =>
    match s1 with
    | c :: s2 =>
      if c = '^' then
        match parsInt s2 with
        | none => none
        | some (ev, s3) => some (.between (sv - 1) ev, s3)
      else none
    | [] => none

/-- Go `locationDelimiter`: a `','` followed by a run of spaces. -/
def locationDelimiter (s : List Char) : Option (List Char) :=
  match s with
  | c :: t => if c = ',' then some (t.dropWhile isSpaceC) else none
  | [] => none

/-- The loop of `multipleLocationParser`, abstracted over the parser `p`
used for each further location; fuelled by the iteration count (each
iteration consumes at least the delimiter, so the input length bounds the
iterations). -/
def parseMultiAux (p : List Char → Option (Location × List Char)) :
    Nat → List Location → List Char → Option (List Location × List Char)
  | fuel, acc, s =>
    match locationDelimiter s with
    | none => some (acc.reverse, s)
    | some s1 =>
      match fuel with
      | 0 => none
      | f + 1 =>
        match p s1 with
        | none => none
        | some (l, s2) => parseMultiAux p f (l :: acc) s2

/-- Go `multipleLocationParser`: `loc (',' WS* loc)*`. -/
def parseMultiple (p : List Char → Option (Location × List Char))
    (s : List Char) : Option (List Location × List Char) :=
  match p s with
  | none => none
  | some (l, s1) => parseMultiAux p s1.length [l] s1

/-- Go `ComplementLocationParser`: `'complement(' loc ')'`. -/
def parseComplementWith (p : List Char → Option (Location × List Char))
    (s : List Char) : Option (Location × List Char) :=
  match expectLit complementLit s with
  | none => none
  | some s1 =>
    match p s1 with
    | none => none
    | some (l, s2) =>
      match s2 with
      | c :: s3 => if c = ')' then some (.complement l, s3) else none
      | [] => none

/-- Go `JoinLocationParser`: `'join(' loc (',' WS* loc)* ')'`. -/
def parseJoinWith (p : List Char → Option (Location × List Char))
    (s : List Char) : Option (Location × List Char) :=
  match expectLit joinLit s with
  | none => none
  | some s1 =>
    match parseMultiple p s1 with
    | none => none
    | some (ls, s2) =>
      match s2 with
      | c :: s3 => if c = ')' then some (.join ls, s3) else none
      | [] => none

/-- Go `OrderLocationParser`: `'order(' loc (',' WS* loc)* ')'`. -/
def parseOrderWith (p : List Char → Option (Location × List Char))
    (s : List Char) : Option (Location × List Char) :=
  match expectLit orderLit s with
  | none => none
  | some s1 =>
    match parseMultiple p s1 with
    | none => none
    | some (ls, s2) =>
      match s2 with
      | c :: s3 => if c = ')' then some (.order ls, s3) else none
      | [] => none

/-- Go `LocationParser` (the `pars.Any` of the `init` function): the ordered
alternatives Range, Order, Join, Complement, Ambiguous, Between, Point,
each backtracking on failure.  Recursion through the composite variants is
fuelled; `AsLocation` supplies fuel exceeding the input length, which the
round-trip lemmas show is always sufficient. -/
def parseLocF : Nat → List Char → Option (Location × List Char)
  | 0, _ => none
  | f + 1, s =>
    match parseRange s with
    | some r => some r
    | none =>
      match parseOrderWith (parseLocF f) s with
      | some r => some r
      | none =>
        match parseJoinWith (parseLocF f) s with
        | some r => some r
        | none =>
          match parseComplementWith (parseLocF f) s with
          | some r => some r
          | none =>
            match parseAmbiguous s with
            | some r => some r
            | none =>
              match parseBetween s with
              | some r => some r
              | none => parsePoint s

/-- Go `AsLocation`: `pars.Exact(LocationParser).Error(errNotLocation)` — the
parse must consume the entire input; every failure (including unconsumed
trailing input) is the single error `errNotLocation`, modelled as `none`. -/
def asLocation (s : List Char) : Option Location :=
  match parseLocF (s.length + 1) s with
  | some (l, []) => some l
  | _ => none

/-! ## Decimal digit lemmas -/

theorem natChars_digits (n : Nat) : ∀ c ∈ natChars n, isDigitC c = true := by
  induction n using Nat.strong_induction_on with
  | _ n ih =>
    rw [natChars]
    split_ifs with h
    · intro c hc
      simp only [List.mem_singleton] at hc
      subst hc
      interval_cases n <;> decide
    · intro c hc
      rw [List.mem_append] at hc
      rcases hc with hc | hc
      · exact ih (n / 10) (Nat.div_lt_self (by omega) (by norm_num)) c hc
      · simp only [List.mem_singleton] at hc
        subst hc
        have hm : n % 10 < 10 := Nat.mod_lt _ (by norm_num)
        generalize hg : n % 10 = m at hm ⊢
        interval_cases m <;> decide

theorem natChars_ne_nil (n : Nat) : natChars n ≠ [] := by
  rw [natChars]
  split_ifs <;> simp

theorem natVal_natChars (n : Nat) : natVal (natChars n) = n := by
  induction n using Nat.strong_induction_on with
  | _ n ih =>
    rw [natChars]
    split_ifs with h
    · show (0 * 10 + digitVal (Char.ofNat (48 + n))) = n
      interval_cases n <;> decide
    · rw [natVal, List.foldl_append, List.foldl_cons, List.foldl_nil]
      have h1 : List.foldl (fun a c => a * 10 + digitVal c) 0 (natChars (n / 10)) = n / 10 :=
        ih (n / 10) (Nat.div_lt_self (by omega) (by norm_num))
      rw [h1]
      have hm : n % 10 < 10 := Nat.mod_lt _ (by norm_num)
      have h2 : digitVal (Char.ofNat (48 + n % 10)) = n % 10 := by
        generalize hg : n % 10 = m at hm ⊢
        interval_cases m <;> decide
      rw [h2]
      omega

theorem takeWhile_append_all {p : Char → Bool} :
    ∀ (l r : List Char), (∀ c ∈ l, p c = true) →
      (∀ c, r.head? = some c → p c = false) → (l ++ r).takeWhile p = l := by
  intro l
  induction l with
  | nil =>
    intro r _ hr
    cases r with
    | nil => rfl
    | cons c t => simp [List.takeWhile_cons, hr c rfl]
  | cons c t ih =>
    intro r hl hr
    simp [List.takeWhile_cons, hl c (by simp), ih r (fun x hx => hl x (by simp [hx])) hr]

theorem parseNat_append (n : Nat) (r : List Char)
    (hr : ∀ c, r.head? = some c → isDigitC c = false) :
    parseNat (natChars n ++ r) = some (n, r) := by
  unfold parseNat
  rw [takeWhile_append_all _ _ (natChars_digits n) hr]
  rw [if_neg (by simp [natChars_ne_nil])]
  rw [natVal_natChars, List.drop_left]

theorem parsInt_append (n : Nat) (r : List Char)
    (hr : ∀ c, r.head? = some c → isDigitC c = false) :
    parsInt (natChars n ++ r) = some ((n : Int), r) := by
  rw [parsInt, parseNat_append n r hr]

theorem parseNat_none (s : List Char)
    (h : ∀ c, s.head? = some c → isDigitC c = false) : parseNat s = none := by
  unfold parseNat
  cases s with
  | nil => rfl
  | cons c t =>
    simp only [List.takeWhile_cons, h c rfl]
    rfl

theorem parsInt_none (s : List Char)
    (h : ∀ c, s.head? = some c → isDigitC c = false) : parsInt s = none := by
  rw [parsInt, parseNat_none s h]

theorem intChars_nonneg (i : Int) (h : 0 ≤ i) : intChars i = natChars i.toNat := by
  rw [intChars, if_neg (by omega)]

/-! ## Follower conditions and component failure lemmas -/

/-- The characters that can legitimately follow a complete location inside a
larger parse: nothing, a `','` (before its sibling in a `join`/`order`), or
a `')'`. -/
def followOK : List Char → Prop
  | [] => True
  | c :: _ => c = ',' ∨ c = ')'

theorem followOK_not_digit {r : List Char} (h : followOK r) :
    ∀ c, r.head? = some c → isDigitC c = false := by
  intro c hc
  cases r with
  | nil => cases hc
  | cons c0 t =>
    simp only [List.head?_cons, Option.some.injEq] at hc
    subst hc
    rcases h with rfl | rfl <;> decide

theorem expectLit_cons_ne {c0 c1 : Char} (h : c0 ≠ c1) (lit s : List Char) :
    expectLit (c1 :: lit) (c0 :: s) = none := by
  rw [expectLit, if_neg]
  simp only [List.length_cons, List.take_succ_cons, List.cons.injEq]
  tauto

theorem expectLit_nil (c1 : Char) (lit : List Char) :
    expectLit (c1 :: lit) [] = none := by
  rw [expectLit, if_neg]
  simp

theorem expectLit_self (lit s : List Char) : expectLit lit (lit ++ s) = some s := by
  rw [expectLit, if_pos (List.take_left lit s), List.drop_left]

/-- Go `RangeLocationParser` fails on any input whose first character is
neither `'<'` nor a digit. -/
theorem parseRange_none_notdigit (c : Char) (t : List Char)
    (hc : isDigitC c = false) (hlt : c ≠ '<') :
    parseRange (c :: t) = none := by
  have hint : parsInt (c :: t) = none := by
    apply parsInt_none
    intro x hx
    simp only [List.head?_cons, Option.some.injEq] at hx
    subst hx
    exact hc
  rw [parseRange]
  simp only [hlt, if_false, hint]

/-- Go `RangeLocationParser` fails on a digit run that is not followed by
`".."`. -/
theorem parseRange_none_digits (m : Nat) (r : List Char)
    (h2 : ∀ c, r.head? = some c → isDigitC c = false)
    (h : ∀ s3, r ≠ '.' :: '.' :: s3) :
    parseRange (natChars m ++ r) = none := by
  obtain ⟨d, t, hd⟩ : ∃ d t, natChars m = d :: t := by
    cases hmc : natChars m with
    | nil => exact absurd hmc (natChars_ne_nil m)
    | cons d t => exact ⟨d, t, rfl⟩
  have hdig : isDigitC d = true := natChars_digits m d (by rw [hd]; simp)
  rw [hd]
  rw [List.cons_append, parseRange]
  have hdlt : ¬ d = '<' := by
    intro hcontra
    rw [hcontra] at hdig
    simp [isDigitC] at hdig
  simp only [hdlt, if_false]
  rw [← List.cons_append, ← hd, parsInt_append m r h2]
  cases r with
  | nil => rfl
  | cons c0 r0 =>
    cases r0 with
    | nil => rfl
    | cons c1 r1 =>
      dsimp only
      rw [if_neg]
      intro ⟨hdot0, hdot1⟩
      subst hdot0
      subst hdot1
      exact absurd rfl (h r1)

/-- Go `OrderLocationParser` fails unless the input starts with `'o'`. -/
theorem parseOrderWith_none (p : List Char → Option (Location × List Char))
    (s : List Char) (h : ∀ c, s.head? = some c → c ≠ 'o') :
    parseOrderWith p s = none := by
  rw [parseOrderWith]
  cases s with
  | nil => rw [show orderLit = 'o' :: ['r','d','e','r','('] from rfl, expectLit_nil]
  | cons c t =>
    rw [show orderLit = 'o' :: ['r','d','e','r','('] from rfl,
      expectLit_cons_ne (h c rfl)]

/-- Go `JoinLocationParser` fails unless the input starts with `'j'`. -/
theorem parseJoinWith_none (p : List Char → Option (Location × List Char))
    (s : List Char) (h : ∀ c, s.head? = some c → c ≠ 'j') :
    parseJoinWith p s = none := by
  rw [parseJoinWith]
  cases s with
  | nil => rw [show joinLit = 'j' :: ['o','i','n','('] from rfl, expectLit_nil]
  | cons c t =>
    rw [show joinLit = 'j' :: ['o','i','n','('] from rfl,
      expectLit_cons_ne (h c rfl)]

/-- Go `ComplementLocationParser` fails unless the input starts with `'c'`. -/
theorem parseComplementWith_none (p : List Char → Option (Location × List Char))
    (s : List Char) (h : ∀ c, s.head? = some c → c ≠ 'c') :
    parseComplementWith p s = none := by
  rw [parseComplementWith]
  cases s with
  | nil =>
    rw [show complementLit = 'c' :: ['o','m','p','l','e','m','e','n','t','('] from rfl,
      expectLit_nil]
  | cons c t =>
    rw [show complementLit = 'c' :: ['o','m','p','l','e','m','e','n','t','('] from rfl,
      expectLit_cons_ne (h c rfl)]

/-- Go `AmbiguousLocationParser` fails on a digit run not followed by `'.'`. -/
theorem parseAmbiguous_none_digits (m : Nat) (r : List Char)
    (h2 : ∀ c, r.head? = some c → isDigitC c = false)
    (h : ∀ c, r.head? = some c → c ≠ '.') :
    parseAmbiguous (natChars m ++ r) = none := by
  rw [parseAmbiguous, parsInt_append m r h2]
  cases r with
  | nil => rfl
  | cons c0 r0 =>
    dsimp only
    rw [if_neg (h c0 rfl)]

/-- Go `AmbiguousLocationParser` fails when the input starts with a non-digit. -/
theorem parseAmbiguous_none_notdigit (s : List Char)
    (h : ∀ c, s.head? = some c → isDigitC c = false) :
    parseAmbiguous s = none := by
  rw [parseAmbiguous, parsInt_none s h]

/-- Go `BetweenLocationParser` fails on a digit run not followed by `'^'`. -/
theorem parseBetween_none_digits (m : Nat) (r : List Char)
    (h2 : ∀ c, r.head? = some c → isDigitC c = false)
    (h : ∀ c, r.head? = some c → c ≠ '^') :
    parseBetween (natChars m ++ r) = none := by
  rw [parseBetween, parsInt_append m r h2]
  cases r with
  | nil => rfl
  | cons c0 r0 =>
    dsimp only
    rw [if_neg (h c0 rfl)]

/-- Go `BetweenLocationParser` fails when the input starts with a non-digit. -/
theorem parseBetween_none_notdigit (s : List Char)
    (h : ∀ c, s.head? = some c → isDigitC c = false) :
    parseBetween s = none := by
  rw [parseBetween, parsInt_none s h]

/-! ## Display helper lemmas -/

theorem isDigitC_not_space {c : Char} (h : isDigitC c = true) : isSpaceC c = false := by
  by_contra hcon
  rw [Bool.not_eq_false] at hcon
  have h1 : 48 ≤ c.toNat := by
    simp only [isDigitC, Bool.and_eq_true, decide_eq_true_eq] at h
    exact h.1
  have h2 : c.toNat ≤ 32 := by
    simp only [isSpaceC, Bool.or_eq_true, decide_eq_true_eq] at hcon
    rcases hcon with (((((rfl | rfl) | rfl) | rfl) | rfl) | rfl) <;> decide
  omega

theorem intChars_ne_nil (i : Int) : intChars i ≠ [] := by
  rw [intChars]
  split_ifs
  · simp
  · exact natChars_ne_nil _

theorem head?_append_ne_nil {α : Type} (l r : List α) (h : l ≠ []) :
    (l ++ r).head? = l.head? := by
  cases l with
  | nil => exact absurd rfl h
  | cons c t => rfl

theorem intChars_head_not_space (i : Int) :
    ∀ c, (intChars i).head? = some c → isSpaceC c = false := by
  intro c hc
  rw [intChars] at hc
  split_ifs at hc
  · simp only [List.head?_cons, Option.some.injEq] at hc
    subst hc
    decide
  · cases hmc : natChars i.toNat with
    | nil => exact absurd hmc (natChars_ne_nil _)
    | cons d t =>
      rw [hmc] at hc
      simp only [List.head?_cons, Option.some.injEq] at hc
      subst hc
      exact isDigitC_not_space (natChars_digits _ d (by rw [hmc]; simp))

theorem display_ne_nil (L : Location) : Location.display L ≠ [] := by
  cases L with
  | point p => exact intChars_ne_nil (p + 1)
  | range s e p5 p3 =>
    simp only [Location.display]
    intro hcontra
    rcases List.append_eq_nil.mp hcontra with ⟨h1, -⟩
    rcases List.append_eq_nil.mp h1 with ⟨h2, -⟩
    rcases List.append_eq_nil.mp h2 with ⟨h3, -⟩
    rcases List.append_eq_nil.mp h3 with ⟨-, h4⟩
    exact intChars_ne_nil _ h4
  | ambiguous s e =>
    simp only [Location.display]
    intro hcontra
    rcases List.append_eq_nil.mp hcontra with ⟨h1, -⟩
    rcases List.append_eq_nil.mp h1 with ⟨h2, -⟩
    exact intChars_ne_nil _ h2
  | between s e =>
    simp only [Location.display]
    intro hcontra
    rcases List.append_eq_nil.mp hcontra with ⟨h1, -⟩
    rcases List.append_eq_nil.mp h1 with ⟨h2, -⟩
    exact intChars_ne_nil _ h2
  | complement l => simp [Location.display, complementLit]
  | join ls => simp [Location.display, joinLit]
  | order ls => simp [Location.display, orderLit]

theorem display_head_not_space (L : Location) :
    ∀ c, (Location.display L).head? = some c → isSpaceC c = false := by
  intro c hc
  cases L with
  | point p => exact intChars_head_not_space _ c hc
  | range s e p5 p3 =>
    rw [Location.display] at hc
    cases p5 with
    | true =>
      rw [if_pos rfl] at hc
      simp only [List.cons_append, List.head?_cons, Option.some.injEq,
        List.nil_append] at hc
      subst hc
      decide
    | false =>
      rw [if_neg Bool.false_ne_true, List.nil_append] at hc
      simp only [List.append_assoc] at hc
      rw [head?_append_ne_nil _ _ (intChars_ne_nil _)] at hc
      exact intChars_head_not_space _ c hc
  | ambiguous s e =>
    rw [Location.display, List.append_assoc,
      head?_append_ne_nil _ _ (intChars_ne_nil _)] at hc
    exact intChars_head_not_space _ c hc
  | between s e =>
    rw [Location.display, List.append_assoc,
      head?_append_ne_nil _ _ (intChars_ne_nil _)] at hc
    exact intChars_head_not_space _ c hc
  | complement l =>
    simp only [Location.display, complementLit, List.cons_append, List.head?_cons,
      Option.some.injEq] at hc
    subst hc
    decide
  | join ls =>
    simp only [Location.display, joinLit, List.cons_append, List.head?_cons,
      Option.some.injEq] at hc
    subst hc
    decide
  | order ls =>
    simp only [Location.display, orderLit, List.cons_append, List.head?_cons,
      Option.some.injEq] at hc
    subst hc
    decide

/-- The tail of a comma-separated display: `',' display(l)` for each further
child. -/
def tailDisplay : List Location → List Char
  | [] => []
  | l :: t => ',' :: (Location.display l ++ tailDisplay t)

theorem displayList_cons_eq (l : Location) (t : List Location) :
    Location.display.displayList (l :: t) = Location.display l ++ tailDisplay t := by
  induction t generalizing l with
  | nil =>
    show Location.display.displayList [l] = Location.display l ++ tailDisplay []
    rw [tailDisplay]
    simp [Location.display.displayList]
  | cons x u ih =>
    have h1 : Location.display.displayList (l :: x :: u) =
        Location.display l ++ [','] ++ Location.display.displayList (x :: u) := rfl
    rw [h1, ih x, tailDisplay]
    simp

theorem length_le_tailDisplay (t : List Location) : t.length ≤ (tailDisplay t).length := by
  induction t with
  | nil => simp [tailDisplay]
  | cons l u ih =>
    simp only [tailDisplay, List.length_cons, List.length_append]
    omega

theorem followOK_tailDisplay (t : List Location) (r0 : List Char) :
    followOK (tailDisplay t ++ ')' :: r0) := by
  cases t with
  | nil => simp [tailDisplay, followOK]
  | cons l u => simp [tailDisplay, followOK]

theorem followOK_not_dotdot {r : List Char} (h : followOK r) :
    ∀ s3, r ≠ '.' :: '.' :: s3 := by
  intro s3 hcontra
  subst hcontra
  rcases h with h | h <;> simp at h

/-! ## Success lemmas for the component parsers on displayed locations -/

theorem parsePoint_display (p : Int) (hp : 0 ≤ p + 1) (r : List Char) (hr : followOK r) :
    parsePoint (Location.display (.point p) ++ r) = some (.point p, r) := by
  rw [Location.display, intChars_nonneg _ hp, parsePoint,
    parsInt_append _ r (followOK_not_digit hr)]
  show some (Location.point (((p + 1).toNat : Int) - 1), r) = some (.point p, r)
  have h : ((p + 1).toNat : Int) - 1 = p := by omega
  rw [h]

theorem parseAmbiguous_display (s e : Int) (h1 : 0 ≤ s + 1) (h2 : 0 ≤ e)
    (r : List Char) (hr : followOK r) :
    parseAmbiguous (Location.display (.ambiguous s e) ++ r) = some (.ambiguous s e, r) := by
  rw [Location.display, intChars_nonneg _ h1, intChars_nonneg _ h2]
  rw [List.append_assoc, List.append_assoc, List.singleton_append]
  rw [parseAmbiguous, parsInt_append _ _ (by intro c hc; cases hc; decide)]
  dsimp only
  rw [parsInt_append _ r (followOK_not_digit hr)]
  have hs : ((s + 1).toNat : Int) - 1 = s := by omega
  have he : ((e).toNat : Int) = e := by omega
  rw [hs, he, if_pos rfl]

theorem parseBetween_display (s e : Int) (h1 : 0 ≤ s + 1) (h2 : 0 ≤ e)
    (r : List Char) (hr : followOK r) :
    parseBetween (Location.display (.between s e) ++ r) = some (.between s e, r) := by
  rw [Location.display, intChars_nonneg _ h1, intChars_nonneg _ h2]
  rw [List.append_assoc, List.append_assoc, List.singleton_append]
  rw [parseBetween, parsInt_append _ _ (by intro c hc; cases hc; decide)]
  dsimp only
  rw [parsInt_append _ r (followOK_not_digit hr)]
  have hs : ((s + 1).toNat : Int) - 1 = s := by omega
  have he : ((e).toNat : Int) = e := by omega
  rw [hs, he, if_pos rfl]

theorem parseRangeGt_digits (m : Nat) (r : List Char) :
    parseRangeGt (natChars m ++ r) = (false, natChars m ++ r) := by
  cases hmc : natChars m with
  | nil => exact absurd hmc (natChars_ne_nil m)
  | cons d t =>
    have hd : isDigitC d = true := natChars_digits m d (by rw [hmc]; simp)
    have hdgt : ¬ d = '>' := by
      intro hcontra
      rw [hcontra] at hd
      simp [isDigitC] at hd
    rw [List.cons_append, parseRangeGt, if_neg hdgt]

theorem parseRangeGt_flag (p3 : Bool) (m2 : Nat) (r : List Char) :
    parseRangeGt ((if p3 = true then ['>'] else []) ++ (natChars m2 ++ r)) =
      (p3, natChars m2 ++ r) := by
  cases p3 with
  | false => rw [if_neg Bool.false_ne_true, List.nil_append, parseRangeGt_digits]
  | true =>
    rw [if_pos rfl]
    rw [show ((['>'] : List Char) ++ (natChars m2 ++ r)) = '>' :: (natChars m2 ++ r) from rfl]
    rw [parseRangeGt, if_pos rfl]

theorem parseRange_display (s e : Int) (p5 p3 : Bool) (h1 : 0 ≤ s + 1) (h2 : 0 ≤ e)
    (r : List Char) (hr : followOK r) :
    parseRange (Location.display (.range s e p5 p3) ++ r) = some (.range s e p5 p3, r) := by
  have hs : ((s + 1).toNat : Int) - 1 = s := by omega
  have he : ((e).toNat : Int) = e := by omega
  obtain ⟨d, t, hmc⟩ : ∃ d t, natChars (s + 1).toNat = d :: t := by
    cases hmc : natChars (s + 1).toNat with
    | nil => exact absurd hmc (natChars_ne_nil _)
    | cons d t => exact ⟨d, t, rfl⟩
  have hd : isDigitC d = true := natChars_digits _ d (by rw [hmc]; simp)
  have hdlt : ¬ d = '<' := by
    intro hcontra
    rw [hcontra] at hd
    simp [isDigitC] at hd
  have hdot_head : ∀ c,
      (('.' :: '.' :: ((if p3 = true then ['>'] else []) ++ (natChars e.toNat ++ r))
        : List Char)).head? = some c → isDigitC c = false := by
    intro c hc
    cases hc
    decide
  rw [Location.display, intChars_nonneg _ h1, intChars_nonneg _ h2]
  simp only [List.append_assoc]
  rw [show ((['.', '.'] : List Char) ++
      ((if p3 = true then ['>'] else []) ++ (natChars e.toNat ++ r))) =
    '.' :: '.' :: ((if p3 = true then ['>'] else []) ++ (natChars e.toNat ++ r)) from rfl]
  cases p5 with
  | false =>
    rw [if_neg Bool.false_ne_true, List.nil_append]
    rw [hmc, List.cons_append, parseRange]
    dsimp only
    rw [if_neg hdlt, decide_eq_false hdlt]
    rw [← List.cons_append, ← hmc]
    rw [parsInt_append _ _ hdot_head]
    dsimp only
    rw [if_pos ⟨rfl, rfl⟩]
    rw [parseRangeGt_flag]
    dsimp only
    rw [parsInt_append _ r (followOK_not_digit hr)]
    dsimp only
    rw [hs, he]
  | true =>
    rw [if_pos rfl]
    rw [show ((['<'] : List Char) ++
        (natChars (s + 1).toNat ++
          '.' :: '.' :: ((if p3 = true then ['>'] else []) ++ (natChars e.toNat ++ r)))) =
      '<' :: (natChars (s + 1).toNat ++
        '.' :: '.' :: ((if p3 = true then ['>'] else []) ++ (natChars e.toNat ++ r)))
      from rfl]
    rw [parseRange]
    dsimp only
    rw [if_pos rfl, decide_eq_true rfl]
    rw [parsInt_append _ _ hdot_head]
    dsimp only
    rw [if_pos ⟨rfl, rfl⟩]
    rw [parseRangeGt_flag]
    dsimp only
    rw [parsInt_append _ r (followOK_not_digit hr)]
    dsimp only
    rw [hs, he]

/-! ## The multiple-location loop on displayed child lists -/

theorem dropWhile_not_space (X Y : List Char) (hne : X ≠ [])
    (h : ∀ c, X.head? = some c → isSpaceC c = false) :
    (X ++ Y).dropWhile isSpaceC = X ++ Y := by
  cases X with
  | nil => exact absurd rfl hne
  | cons c t =>
    rw [List.cons_append, List.dropWhile_cons, h c rfl]
    simp

theorem parseMultiAux_spec (p : List Char → Option (Location × List Char)) :
    ∀ (t : List Location) (acc : List Location) (fuel : Nat) (r0 : List Char),
      (∀ l ∈ t, ∀ r', followOK r' → p (Location.display l ++ r') = some (l, r')) →
      t.length ≤ fuel →
      parseMultiAux p fuel acc (tailDisplay t ++ ')' :: r0) =
        some (acc.reverse ++ t, ')' :: r0) := by
  intro t
  induction t with
  | nil =>
    intro acc fuel r0 _ _
    rw [tailDisplay, List.nil_append, parseMultiAux]
    rw [show locationDelimiter (')' :: r0) = none by rw [locationDelimiter, if_neg (by decide)]]
    simp
  | cons l t ih =>
    intro acc fuel r0 hp hfuel
    obtain ⟨f, rfl⟩ : ∃ f, fuel = f + 1 := by
      cases fuel with
      | zero => simp at hfuel
      | succ f => exact ⟨f, rfl⟩
    rw [tailDisplay, List.cons_append, parseMultiAux]
    rw [show locationDelimiter (',' :: ((Location.display l ++ tailDisplay t) ++ ')' :: r0)) =
        some (((Location.display l ++ tailDisplay t) ++ ')' :: r0).dropWhile isSpaceC)
      by rw [locationDelimiter, if_pos rfl]]
    rw [List.append_assoc]
    rw [dropWhile_not_space _ _ (display_ne_nil l) (display_head_not_space l)]
    dsimp only
    rw [hp l (by simp) _ (followOK_tailDisplay t r0)]
    dsimp only
    rw [ih (l :: acc) f r0 (fun x hx => hp x (by simp [hx])) (by simpa using hfuel)]
    rw [List.reverse_cons, List.append_assoc, List.singleton_append]

theorem parseMultiple_display (p : List Char → Option (Location × List Char))
    (ls : List Location) (hne : ls ≠ []) (r0 : List Char)
    (hp : ∀ l ∈ ls, ∀ r', followOK r' → p (Location.display l ++ r') = some (l, r')) :
    parseMultiple p (Location.display.displayList ls ++ ')' :: r0) = some (ls, ')' :: r0) := by
  obtain ⟨l, t, rfl⟩ := List.exists_cons_of_ne_nil hne
  rw [displayList_cons_eq, List.append_assoc, parseMultiple]
  rw [hp l (by simp) _ (followOK_tailDisplay t r0)]
  dsimp only
  have hfl : t.length ≤ (tailDisplay t ++ ')' :: r0).length := by
    have := length_le_tailDisplay t
    simp only [List.length_append, List.length_cons]
    omega
  rw [parseMultiAux_spec p t [l] _ r0 (fun x hx => hp x (by simp [hx])) hfl]
  rw [List.reverse_singleton, List.singleton_append]

/-! ## The parser round-trip master lemma -/

theorem digits_head_ne (m : Nat) (r : List Char) (c : Char) (hc : isDigitC c = false) :
    ∀ x, (natChars m ++ r).head? = some x → x ≠ c := by
  intro x hx hcontra
  subst hcontra
  obtain ⟨d, t, hd⟩ : ∃ d t, natChars m = d :: t := by
    cases hmc : natChars m with
    | nil => exact absurd hmc (natChars_ne_nil m)
    | cons d t => exact ⟨d, t, rfl⟩
  have hdig : isDigitC d = true := natChars_digits m d (by rw [hd]; simp)
  rw [hd, List.cons_append, List.head?_cons, Option.some.injEq] at hx
  rw [← hx] at hc
  rw [hdig] at hc
  cases hc

theorem followOK_head_ne {r : List Char} (h : followOK r) :
    ∀ c, r.head? = some c → c ≠ '.' ∧ c ≠ '^' := by
  intro c hc
  cases r with
  | nil => cases hc
  | cons c0 t =>
    rw [List.head?_cons, Option.some.injEq] at hc
    subst hc
    rcases h with rfl | rfl <;> exact ⟨by decide, by decide⟩

theorem wfList_mem {ls : List Location} (h : Location.wfB.wfList ls = true) :
    ∀ x ∈ ls, Location.wfB x = true := by
  induction ls with
  | nil => intro x hx; cases hx
  | cons l t ih =>
    rw [Location.wfB.wfList, Bool.and_eq_true] at h
    intro x hx
    rcases List.mem_cons.mp hx with rfl | hx
    · exact h.1
    · exact ih h.2 x hx

theorem display_length_le_displayList :
    ∀ (ls : List Location) (x : Location), x ∈ ls →
      (Location.display x).length ≤ (Location.display.displayList ls).length := by
  intro ls
  induction ls with
  | nil => intro x hx; cases hx
  | cons l t ih =>
    intro x hx
    rw [displayList_cons_eq, List.length_append]
    rcases List.mem_cons.mp hx with rfl | hx
    · omega
    · have h1 := ih x hx
      have h2 : (Location.display.displayList t).length ≤ (tailDisplay t).length := by
        cases t with
        | nil => simp [Location.display.displayList, tailDisplay]
        | cons y u =>
          rw [displayList_cons_eq, tailDisplay]
          simp only [List.length_append, List.length_cons]
          omega
      omega

theorem display_complement_length (l : Location) :
    (Location.display (.complement l)).length = (Location.display l).length + 12 := by
  rw [Location.display]
  simp only [List.length_append, List.length_cons, List.length_nil]
  rw [show (complementLit).length = 11 from rfl]
  omega

theorem display_join_length (ls : List Location) :
    (Location.display (.join ls)).length = (Location.display.displayList ls).length + 6 := by
  rw [Location.display]
  simp only [List.length_append, List.length_cons, List.length_nil]
  rw [show (joinLit).length = 5 from rfl]
  omega

theorem display_order_length (ls : List Location) :
    (Location.display (.order ls)).length = (Location.display.displayList ls).length + 7 := by
  rw [Location.display]
  simp only [List.length_append, List.length_cons, List.length_nil]
  rw [show (orderLit).length = 6 from rfl]
  omega

/-- Master round-trip lemma: on the display string of a well-formed
location followed by a legitimate continuation, `LocationParser` (with
sufficient fuel) succeeds, returns exactly that location and consumes
exactly its display. -/
theorem parseLocF_display :
    ∀ (L : Location), Location.wfB L = true →
      ∀ (r : List Char), followOK r → ∀ (f : Nat), (Location.display L).length < f →
        parseLocF f (Location.display L ++ r) = some (L, r) := by
  intro L
  induction L using Location.inductionOn with
  | hp p =>
    intro hwf r hr f hf
    obtain ⟨f', rfl⟩ : ∃ f', f = f' + 1 := ⟨f - 1, by omega⟩
    rw [Location.wfB, decide_eq_true_eq] at hwf
    have hshape : Location.display (.point p) ++ r = natChars (p + 1).toNat ++ r := by
      rw [Location.display, intChars_nonneg _ hwf]
    have hR : parseRange (Location.display (.point p) ++ r) = none := by
      rw [hshape]
      exact parseRange_none_digits _ r (followOK_not_digit hr) (by
        intro s3 hcon
        have := followOK_head_ne hr
        rw [hcon] at this
        exact absurd rfl (this '.' rfl).1)
    have hO : parseOrderWith (parseLocF f') (Location.display (.point p) ++ r) = none := by
      rw [hshape]
      exact parseOrderWith_none _ _ (digits_head_ne _ r 'o' (by decide))
    have hJ : parseJoinWith (parseLocF f') (Location.display (.point p) ++ r) = none := by
      rw [hshape]
      exact parseJoinWith_none _ _ (digits_head_ne _ r 'j' (by decide))
    have hC : parseComplementWith (parseLocF f') (Location.display (.point p) ++ r) = none := by
      rw [hshape]
      exact parseComplementWith_none _ _ (digits_head_ne _ r 'c' (by decide))
    have hA : parseAmbiguous (Location.display (.point p) ++ r) = none := by
      rw [hshape]
      exact parseAmbiguous_none_digits _ r (followOK_not_digit hr)
        (fun c hc => (followOK_head_ne hr c hc).1)
    have hB : parseBetween (Location.display (.point p) ++ r) = none := by
      rw [hshape]
      exact parseBetween_none_digits _ r (followOK_not_digit hr)
        (fun c hc => (followOK_head_ne hr c hc).2)
    rw [parseLocF, hR]
    dsimp only
    rw [hO]
    dsimp only
    rw [hJ]
    dsimp only
    rw [hC]
    dsimp only
    rw [hA]
    dsimp only
    rw [hB]
    dsimp only
    exact parsePoint_display p hwf r hr
  | hr s e p5 p3 =>
    intro hwf r hr f hf
    obtain ⟨f', rfl⟩ : ∃ f', f = f' + 1 := ⟨f - 1, by omega⟩
    rw [Location.wfB, Bool.and_eq_true, decide_eq_true_eq, decide_eq_true_eq] at hwf
    rw [parseLocF, parseRange_display s e p5 p3 hwf.1 hwf.2 r hr]
  | ha s e =>
    intro hwf r hr f hf
    obtain ⟨f', rfl⟩ : ∃ f', f = f' + 1 := ⟨f - 1, by omega⟩
    rw [Location.wfB, Bool.and_eq_true, decide_eq_true_eq, decide_eq_true_eq] at hwf
    obtain ⟨h1, h2⟩ := hwf
    have hshape : Location.display (.ambiguous s e) ++ r =
        natChars (s + 1).toNat ++ ('.' :: (natChars e.toNat ++ r)) := by
      rw [Location.display, intChars_nonneg _ h1, intChars_nonneg _ h2]
      simp [List.append_assoc]
    have hR : parseRange (Location.display (.ambiguous s e) ++ r) = none := by
      rw [hshape]
      refine parseRange_none_digits _ _ (by intro c hc; cases hc; decide) ?_
      intro s3 hcon
      rw [List.cons.injEq] at hcon
      have hh : (natChars e.toNat ++ r).head? = some '.' := by
        rw [hcon.2, List.head?_cons]
      exact absurd rfl (digits_head_ne e.toNat r '.' (by decide) '.' hh)
    have hO : parseOrderWith (parseLocF f') (Location.display (.ambiguous s e) ++ r) = none := by
      rw [hshape]
      exact parseOrderWith_none _ _ (digits_head_ne _ _ 'o' (by decide))
    have hJ : parseJoinWith (parseLocF f') (Location.display (.ambiguous s e) ++ r) = none := by
      rw [hshape]
      exact parseJoinWith_none _ _ (digits_head_ne _ _ 'j' (by decide))
    have hC : parseComplementWith (parseLocF f')
        (Location.display (.ambiguous s e) ++ r) = none := by
      rw [hshape]
      exact parseComplementWith_none _ _ (digits_head_ne _ _ 'c' (by decide))
    rw [parseLocF, hR]
    dsimp only
    rw [hO]
    dsimp only
    rw [hJ]
    dsimp only
    rw [hC]
    dsimp only
    rw [parseAmbiguous_display s e h1 h2 r hr]
  | hb s e =>
    intro hwf r hr f hf
    obtain ⟨f', rfl⟩ : ∃ f', f = f' + 1 := ⟨f - 1, by omega⟩
    rw [Location.wfB, Bool.and_eq_true, decide_eq_true_eq, decide_eq_true_eq] at hwf
    obtain ⟨h1, h2⟩ := hwf
    have hshape : Location.display (.between s e) ++ r =
        natChars (s + 1).toNat ++ ('^' :: (natChars e.toNat ++ r)) := by
      rw [Location.display, intChars_nonneg _ h1, intChars_nonneg _ h2]
      simp [List.append_assoc]
    have hR : parseRange (Location.display (.between s e) ++ r) = none := by
      rw [hshape]
      refine parseRange_none_digits _ _ (by intro c hc; cases hc; decide) ?_
      intro s3 hcon
      rw [List.cons.injEq] at hcon
      exact absurd hcon.1 (by decide)
    have hO : parseOrderWith (parseLocF f') (Location.display (.between s e) ++ r) = none := by
      rw [hshape]
      exact parseOrderWith_none _ _ (digits_head_ne _ _ 'o' (by decide))
    have hJ : parseJoinWith (parseLocF f') (Location.display (.between s e) ++ r) = none := by
      rw [hshape]
      exact parseJoinWith_none _ _ (digits_head_ne _ _ 'j' (by decide))
    have hC : parseComplementWith (parseLocF f')
        (Location.display (.between s e) ++ r) = none := by
      rw [hshape]
      exact parseComplementWith_none _ _ (digits_head_ne _ _ 'c' (by decide))
    have hA : parseAmbiguous (Location.display (.between s e) ++ r) = none := by
      rw [hshape]
      exact parseAmbiguous_none_digits _ _ (by intro c hc; cases hc; decide)
        (by intro c hc; cases hc; decide)
    rw [parseLocF, hR]
    dsimp only
    rw [hO]
    dsimp only
    rw [hJ]
    dsimp only
    rw [hC]
    dsimp only
    rw [hA]
    dsimp only
    rw [parseBetween_display s e h1 h2 r hr]
  | hc l ih =>
    intro hwf r hr f hf
    obtain ⟨f', rfl⟩ : ∃ f', f = f' + 1 := ⟨f - 1, by omega⟩
    rw [Location.wfB] at hwf
    have hshape : Location.display (.complement l) ++ r =
        complementLit ++ (Location.display l ++ (')' :: r)) := by
      rw [Location.display]
      simp [List.append_assoc]
    have hconsshape : complementLit ++ (Location.display l ++ (')' :: r)) =
        'c' :: (['o', 'm', 'p', 'l', 'e', 'm', 'e', 'n', 't', '('] ++
          (Location.display l ++ (')' :: r))) := rfl
    have hR : parseRange (Location.display (.complement l) ++ r) = none := by
      rw [hshape, hconsshape]
      exact parseRange_none_notdigit 'c' _ (by decide) (by decide)
    have hO : parseOrderWith (parseLocF f') (Location.display (.complement l) ++ r) = none := by
      rw [hshape, hconsshape]
      refine parseOrderWith_none _ _ ?_
      intro c hc
      rw [List.head?_cons, Option.some.injEq] at hc
      subst hc
      decide
    have hJ : parseJoinWith (parseLocF f') (Location.display (.complement l) ++ r) = none := by
      rw [hshape, hconsshape]
      refine parseJoinWith_none _ _ ?_
      intro c hc
      rw [List.head?_cons, Option.some.injEq] at hc
      subst hc
      decide
    have hfl : (Location.display l).length < f' := by
      have := display_complement_length l
      omega
    rw [parseLocF, hR]
    dsimp only
    rw [hO]
    dsimp only
    rw [hJ]
    dsimp only
    rw [hshape, parseComplementWith, expectLit_self]
    dsimp only
    rw [ih hwf (')' :: r) (Or.inr rfl) f' hfl]
    dsimp only
    rw [if_pos rfl]
  | hj ls ih =>
    intro hwf r hr f hf
    obtain ⟨f', rfl⟩ : ∃ f', f = f' + 1 := ⟨f - 1, by omega⟩
    rw [Location.wfB, Bool.and_eq_true, Bool.not_eq_true', List.isEmpty_eq_false] at hwf
    obtain ⟨hne, hwl⟩ := hwf
    have hshape : Location.display (.join ls) ++ r =
        joinLit ++ (Location.display.displayList ls ++ (')' :: r)) := by
      rw [Location.display]
      simp [List.append_assoc]
    have hconsshape : joinLit ++ (Location.display.displayList ls ++ (')' :: r)) =
        'j' :: (['o', 'i', 'n', '('] ++
          (Location.display.displayList ls ++ (')' :: r))) := rfl
    have hR : parseRange (Location.display (.join ls) ++ r) = none := by
      rw [hshape, hconsshape]
      exact parseRange_none_notdigit 'j' _ (by decide) (by decide)
    have hO : parseOrderWith (parseLocF f') (Location.display (.join ls) ++ r) = none := by
      rw [hshape, hconsshape]
      refine parseOrderWith_none _ _ ?_
      intro c hc
      rw [List.head?_cons, Option.some.injEq] at hc
      subst hc
      decide
    have hp : ∀ x ∈ ls, ∀ r', followOK r' →
        parseLocF f' (Location.display x ++ r') = some (x, r') := by
      intro x hx r' hr'
      refine ih x hx (wfList_mem hwl x hx) r' hr' f' ?_
      have h1 := display_length_le_displayList ls x hx
      have h2 := display_join_length ls
      omega
    rw [parseLocF, hR]
    dsimp only
    rw [hO]
    dsimp only
    rw [hshape, parseJoinWith, expectLit_self]
    dsimp only
    rw [parseMultiple_display (parseLocF f') ls hne r hp]
    dsimp only
    rw [if_pos rfl]
  | ho ls ih =>
    intro hwf r hr f hf
    obtain ⟨f', rfl⟩ : ∃ f', f = f' + 1 := ⟨f - 1, by omega⟩
    rw [Location.wfB, Bool.and_eq_true, Bool.not_eq_true', List.isEmpty_eq_false] at hwf
    obtain ⟨hne, hwl⟩ := hwf
    have hshape : Location.display (.order ls) ++ r =
        orderLit ++ (Location.display.displayList ls ++ (')' :: r)) := by
      rw [Location.display]
      simp [List.append_assoc]
    have hconsshape : orderLit ++ (Location.display.displayList ls ++ (')' :: r)) =
        'o' :: (['r', 'd', 'e', 'r', '('] ++
          (Location.display.displayList ls ++ (')' :: r))) := rfl
    have hR : parseRange (Location.display (.order ls) ++ r) = none := by
      rw [hshape, hconsshape]
      exact parseRange_none_notdigit 'o' _ (by decide) (by decide)
    have hp : ∀ x ∈ ls, ∀ r', followOK r' →
        parseLocF f' (Location.display x ++ r') = some (x, r') := by
      intro x hx r' hr'
      refine ih x hx (wfList_mem hwl x hx) r' hr' f' ?_
      have h1 := display_length_le_displayList ls x hx
      have h2 := display_order_length ls
      omega
    rw [parseLocF, hR]
    dsimp only
    rw [hshape, parseOrderWith, expectLit_self]
    dsimp only
    rw [parseMultiple_display (parseLocF f') ls hne r hp]
    dsimp only
    rw [if_pos rfl]

/-! ## Claim theorems about the parser -/

/-- Claim C4 counterexample: `Join([])` is a location value whose display
string `"join()"` the parser rejects (the grammar requires at least one
child between the parentheses), so `AsLocation(L.String())` does not
round-trip for every location value `L`. -/
theorem location_roundtrip_counterexample :
    asLocation (Location.display (.join [])) ≠ some (.join []) := by
  decide

/-- Claim C4 amended: For every location value `L` of the eight variants in
which every `Join` and `Order` node has at least one child and every
displayed coordinate is a non-negative integer, parsing the display string
round-trips: `AsLocation(L.String())` succeeds and returns `L`. -/
theorem location_roundtrip (L : Location) (hwf : Location.wfB L = true) :
    asLocation (Location.display L) = some L := by
  rw [asLocation]
  have h := parseLocF_display L hwf [] trivial ((Location.display L).length + 1) (by omega)
  rw [List.append_nil] at h
  rw [h]

/-- Witness for `location_roundtrip` at the specification's own example
`join(complement(5..10),order(20..25,30..35))`. -/
theorem location_roundtrip_witness :
    asLocation (Location.display (.join [.complement (.range 4 10 false false),
        .order [.range 19 25 false false, .range 29 35 false false]])) =
      some (.join [.complement (.range 4 10 false false),
        .order [.range 19 25 false false, .range 29 35 false false]]) :=
  location_roundtrip _ (by decide)

/-- Claim C7: The trailing-`'>'` production of the range grammar is dead code:
`AsLocation("1..5>")` fails (the guard `err != nil && c == '>'` on the
final peek can never hold, because `pars.Next` yields the zero byte
whenever it returns an error), while the `'>'` before the end integer
does work.  The claim (and the spec grammar `range := ['<'] integer '..'
['>'] integer ['>']`) describes the evident intent of the dead branch. -/
theorem range_trailing_gt_rejected :
    asLocation ['1', '.', '.', '5', '>'] = none ∧
    asLocation ['1', '.', '.', '>', '5'] = some (.range 0 5 false true) := by
  constructor
  · decide
  · decide

/-- Claim C9 counterexample: `"5"` is a valid location string (a point), and
appending the non-empty trailing input `"..9"` does not produce the
`not a Location` error: the whole string parses as the range `5..9`.  So it
is not the case that every valid location followed by non-empty trailing
input is rejected. -/
theorem exact_consumption_counterexample :
    asLocation ['5'] = some (.point 4) ∧
    asLocation ['5', '.', '.', '9'] = some (.range 4 9 false false) := by
  constructor
  · decide
  · decide

/-- Claim C9 amended: `AsLocation` requires exact consumption: for every
well-formed location `L` and non-empty trailing input that cannot extend
the location parse (beginning with `','` or `')'`), `AsLocation` on the
display of `L` followed by that input returns the `not a Location` error
and no location value. -/
theorem asLocation_trailing_fails (L : Location) (hwf : Location.wfB L = true)
    (c : Char) (hc : c = ',' ∨ c = ')') (r0 : List Char) :
    asLocation (Location.display L ++ c :: r0) = none := by
  rw [asLocation]
  have h := parseLocF_display L hwf (c :: r0) hc
    ((Location.display L ++ c :: r0).length + 1)
    (by simp only [List.length_append, List.length_cons]; omega)
  rw [h]

/-- Witness for `asLocation_trailing_fails`: `"5)"` is rejected. -/
theorem asLocation_trailing_fails_witness :
    asLocation (Location.display (.point 4) ++ ')' :: []) = none :=
  asLocation_trailing_fails (.point 4) (by decide) ')' (Or.inr rfl) []

/-! ## The feature table

Embedding of the feature-table file: `Feature` (restricted to the fields the
ordering claims depend on — qualifiers and the order map are modelled
separately for the formatter claim), `ByLocation.Less`, `sort.IsSorted`,
`sort.Search` (the binary search of the standard library, used by `Add`),
`FeatureList.Insert` and `FeatureList.Add`. -/

/-- A feature: its key and location (the fields `ByLocation` and
`FeatureList.Add` read). -/
structure Feature where
  key : String
  location : Location
deriving DecidableEq

/-- Go `ByLocation.Less`: `source`-keyed features sort before all others;
otherwise `LocationLess` decides. -/
def byLocationLess (a b : Feature) : Bool :=
  if a.key = "source" ∧ b.key ≠ "source" then true
  else if b.key = "source" ∧ a.key ≠ "source" then false
  else locationLess a.location b.location

/-- Go `sort.IsSorted` for a comparison function: no element `Less` than its
predecessor. -/
def goIsSortedBy (less : Feature → Feature → Bool) : List Feature → Bool
  | [] => true
  | [_] => true
  | a :: b :: t => !(less b a) && goIsSortedBy less (b :: t)

/-- The loop of Go's `sort.Search` on the interval `[i, j)`:
`h := (i+j)/2`; if the predicate holds at `h` the search continues in
`[i, h)`, otherwise in `[h+1, j)`. -/
def goSearchAux (p : Nat → Bool) (i j : Nat) : Nat :=
  if _h : i < j then
    let m := (i + j) / 2
    if p m then goSearchAux p i m else goSearchAux p (m + 1) j
  else i
termination_by j - i
decreasing_by
  · omega
  · omega

/-- Go `sort.Search(n, f)`. -/
def goSearch (n : Nat) (p : Nat → Bool) : Nat := goSearchAux p 0 n

/-- The loop of `FeatureList.Add` counting the leading `source` features. -/
def leadingSources : List Feature → Nat
  | [] => 0
  | f :: t => if f.key = "source" then leadingSources t + 1 else 0

/-- Go `FeatureList.Insert(i, f)`: the `append`/`copy` splice placing `f` at
index `i`. -/
def goInsert (l : List Feature) (i : Nat) (f : Feature) : List Feature :=
  l.take i ++ f :: l.drop i

/-- Out-of-range default for the search predicate (`sort.Search` only
evaluates the predicate inside `[0, n)`, so the default is never read). -/
def dummyFeature : Feature := ⟨"", .point 0⟩

/-- Go `FeatureList.Add(f)`: count the leading sources `n`; a `source` feature
is inserted at `n` (the end of the source run); any other feature is
inserted at `n + i` where `i` is the `sort.Search` index of the first
feature of the non-source region that `f`'s location is `LocationLess`
than. -/
def featureAdd (l : List Feature) (f : Feature) : List Feature :=
  let n := leadingSources l
  if f.key = "source" then goInsert l n f
  else
    let tail := l.drop n
    let i := goSearch tail.length
      (fun k => locationLess f.location ((tail.getD k dummyFeature).location))
    goInsert l (n + i) f

/-- A sequence of `Add` calls starting from the empty feature list. -/
def addAll (fs : List Feature) : List Feature := fs.foldl featureAdd []

/-- The amended feature-list invariant: the list splits into a prefix of
`source` features followed by non-source features that are pairwise in
ascending `LocationLess` order. -/
def featureListInv (l : List Feature) : Prop :=
  ∃ s t, l = s ++ t ∧ (∀ f ∈ s, f.key = "source") ∧ (∀ f ∈ t, f.key ≠ "source") ∧
    List.Pairwise (fun a b => locationLess b.location a.location = false) t

/-! ## Correctness of `Add` (claim C3) -/

theorem locationLess_asymm (a b : Location) (h : locationLess a b = true) :
    locationLess b a = false := by
  rw [locationLess_eq_true_iff] at h
  rw [locationLess_eq_false_iff]
  omega

theorem locationLess_trans_of_not (a b c : Location)
    (h1 : locationLess a b = true) (h2 : locationLess c b = false) :
    locationLess a c = true := by
  rw [locationLess_eq_true_iff] at h1 ⊢
  rw [locationLess_eq_false_iff] at h2
  omega

/-- Correctness of the `sort.Search` loop: with a monotone predicate and
consistent outer bounds, the result separates the `false` region from the
`true` region. -/
theorem goSearchAux_spec (p : Nat → Bool) (n : Nat)
    (mono : ∀ k m, k ≤ m → m < n → p k = true → p m = true) :
    ∀ d i j, j - i ≤ d → i ≤ j → j ≤ n →
      (∀ k, k < i → p k = false) → (∀ k, j ≤ k → k < n → p k = true) →
      ((∀ k, k < goSearchAux p i j → p k = false) ∧
       (∀ k, goSearchAux p i j ≤ k → k < n → p k = true) ∧
       i ≤ goSearchAux p i j ∧ goSearchAux p i j ≤ j) := by
  intro d
  induction d with
  | zero =>
    intro i j hd hij hjn hlo hhi
    have hij' : i = j := by omega
    subst hij'
    rw [goSearchAux, dif_neg (by omega)]
    exact ⟨hlo, fun k hk1 hk2 => hhi k (by omega) hk2, le_refl i, le_refl i⟩
  | succ d ih =>
    intro i j hd hij hjn hlo hhi
    rw [goSearchAux]
    by_cases hlt : i < j
    · rw [dif_pos hlt]
      dsimp only
      by_cases hpm : p ((i + j) / 2) = true
      · rw [if_pos hpm]
        have hhi2 : ∀ k, (i + j) / 2 ≤ k → k < n → p k = true := by
          intro k hk1 hk2
          exact mono ((i + j) / 2) k hk1 hk2 hpm
        have hrec := ih i ((i + j) / 2) (by omega) (by omega) (by omega) hlo hhi2
        exact ⟨hrec.1, hrec.2.1, hrec.2.2.1, le_trans hrec.2.2.2 (by omega)⟩
      · rw [if_neg hpm]
        have hpm' : p ((i + j) / 2) = false := by
          cases hh : p ((i + j) / 2)
          · rfl
          · exact absurd hh hpm
        have hlo2 : ∀ k, k < (i + j) / 2 + 1 → p k = false := by
          intro k hk
          by_cases hki : k < i
          · exact hlo k hki
          · cases hh : p k
            · rfl
            · have := mono k ((i + j) / 2) (by omega) (by omega) hh
              rw [hpm'] at this
              cases this
        have hrec := ih ((i + j) / 2 + 1) j (by omega) (by omega) hjn hlo2 hhi
        exact ⟨hrec.1, hrec.2.1, by omega, hrec.2.2.2⟩
    · rw [dif_neg hlt]
      have hij' : i = j := by omega
      subst hij'
      exact ⟨hlo, fun k hk1 hk2 => hhi k (by omega) hk2, le_refl i, le_refl i⟩

theorem goSearch_spec (n : Nat) (p : Nat → Bool)
    (mono : ∀ k m, k ≤ m → m < n → p k = true → p m = true) :
    (∀ k, k < goSearch n p → p k = false) ∧
    (∀ k, goSearch n p ≤ k → k < n → p k = true) ∧ goSearch n p ≤ n := by
  have h := goSearchAux_spec p n mono n 0 n (by omega) (by omega) (le_refl n)
    (fun k hk => absurd hk (Nat.not_lt_zero k)) (fun k hk1 hk2 => absurd hk1 (by omega))
  exact ⟨h.1, h.2.1, h.2.2.2⟩

theorem leadingSources_append (s t : List Feature)
    (hs : ∀ f ∈ s, f.key = "source") (ht : ∀ f ∈ t, f.key ≠ "source") :
    leadingSources (s ++ t) = s.length := by
  induction s with
  | nil =>
    cases t with
    | nil => rfl
    | cons g u =>
      simp only [List.nil_append, leadingSources, List.length_nil]
      rw [if_neg (ht g (by simp))]
  | cons g u ih =>
    simp only [List.cons_append, leadingSources, List.length_cons, List.append_eq]
    rw [if_pos (hs g (by simp)), ih (fun x hx => hs x (by simp [hx]))]

/-- One `Add` preserves the feature-list invariant. -/
theorem featureAdd_preserves (l : List Feature) (f : Feature) (h : featureListInv l) :
    featureListInv (featureAdd l f) := by
  obtain ⟨s, t, rfl, hs, ht, hp⟩ := h
  have hn : leadingSources (s ++ t) = s.length := leadingSources_append s t hs ht
  rw [featureAdd]
  rw [hn]
  by_cases hf : f.key = "source"
  · rw [if_pos hf]
    refine ⟨s ++ [f], t, ?_, ?_, ht, hp⟩
    · rw [goInsert, List.take_left, List.drop_left]
      simp
    · intro x hx
      rcases List.mem_append.mp hx with hx | hx
      · exact hs x hx
      · rw [List.mem_singleton] at hx
        subst hx
        exact hf
  · rw [if_neg hf]
    dsimp only
    simp only [List.drop_left]
    set p : Nat → Bool :=
      fun k => locationLess f.location ((t.getD k dummyFeature).location) with hpdef
    have hpk : ∀ k (hk : k < t.length),
        p k = locationLess f.location (t.get ⟨k, hk⟩).location := by
      intro k hk
      rw [hpdef]
      show locationLess f.location ((t.getD k dummyFeature).location) = _
      rw [List.getD_eq_getElem t dummyFeature hk]
      rfl
    have hmono : ∀ k m, k ≤ m → m < t.length → p k = true → p m = true := by
      intro k m hkm hm hk
      rcases Nat.eq_or_lt_of_le hkm with rfl | hkm'
      · exact hk
      · have hklen : k < t.length := by omega
        have hR : locationLess (t.get ⟨m, hm⟩).location (t.get ⟨k, hklen⟩).location = false :=
          List.pairwise_iff_get.mp hp ⟨k, hklen⟩ ⟨m, hm⟩ hkm'
        rw [hpk k hklen] at hk
        rw [hpk m hm]
        exact locationLess_trans_of_not _ _ _ hk hR
    obtain ⟨hlow, hhigh, hle⟩ := goSearch_spec t.length p hmono
    set i := goSearch t.length p with hidef
    have hsplice : goInsert (s ++ t) (s.length + i) f = s ++ (t.take i ++ f :: t.drop i) := by
      rw [goInsert, List.take_append, List.drop_append]
      simp
    rw [hsplice]
    refine ⟨s, t.take i ++ f :: t.drop i, rfl, hs, ?_, ?_⟩
    · intro x hx
      rcases List.mem_append.mp hx with hx | hx
      · exact ht x (List.mem_of_mem_take hx)
      · rcases List.mem_cons.mp hx with rfl | hx
        · exact hf
        · exact ht x (List.mem_of_mem_drop hx)
    · rw [List.pairwise_append]
      have hpt := hp
      conv at hpt => rw [← List.take_append_drop i t]
      rw [List.pairwise_append] at hpt
      refine ⟨hpt.1, ?_, ?_⟩
      · rw [List.pairwise_cons]
        refine ⟨?_, hpt.2.1⟩
        intro b hb
        obtain ⟨k, hk, rfl⟩ := List.mem_iff_getElem.mp hb
        rw [List.getElem_drop]
        have hklen : i + k < t.length := by
          have := List.length_drop i t
          omega
        have hptrue : p (i + k) = true := hhigh (i + k) (by omega) hklen
        rw [hpk (i + k) hklen] at hptrue
        exact locationLess_asymm _ _ hptrue
      · intro a ha b hb
        rcases List.mem_cons.mp hb with rfl | hb
        · obtain ⟨k, hk, rfl⟩ := List.mem_iff_getElem.mp ha
          rw [List.getElem_take]
          have hklen : k < t.length := by
            have := List.length_take i t
            omega
          have hpfalse : p k = false := hlow k (by
            have := List.length_take i t
            omega)
          rw [hpk k hklen] at hpfalse
          exact hpfalse
        · exact hpt.2.2 a ha b hb

/-- Claim C3 counterexample: Two `source` features added in decreasing
location order: `Add` always inserts a `source` feature at the end of the
existing source run without comparing locations, so the resulting list has
`ByLocation.Less(list[1], list[0])` and is not sorted by `ByLocation`.
(Both locations are positive-length with well-defined `Map`.) -/
theorem featureList_sorted_counterexample :
    goIsSortedBy byLocationLess
      (addAll [⟨"source", .range 10 20 false false⟩, ⟨"source", .range 0 5 false false⟩])
      = false ∧
    mapDefB (Location.range 10 20 false false) 0 = true ∧
    mapDefB (Location.range 0 5 false false) 0 = true := by
  refine ⟨by decide, by decide, by decide⟩

/-- Claim C3 amended: After any sequence of `FeatureList.Add` calls starting
from the empty list (on features whose locations have panic-free first and
last `Map` coordinates), the list consists of all the `source` features
first — so no non-source feature ever precedes a source feature — followed
by the non-source features in ascending `LocationLess` order.  (The whole
list need not be sorted by `ByLocation`: source features keep insertion
order among themselves, as the counterexample shows.) -/
theorem featureList_add_invariant (fs : List Feature)
    (hdef : ∀ f ∈ fs, mapDefB f.location 0 = true ∧
      mapDefB f.location (lenLoc f.location - 1) = true) :
    featureListInv (addAll fs) := by
  rw [addAll]
  have hinv : featureListInv [] := ⟨[], [], rfl, by simp, by simp, by simp⟩
  clear hdef
  generalize hacc : ([] : List Feature) = acc at hinv
  clear hacc
  induction fs generalizing acc with
  | nil => exact hinv
  | cons g u ih => exact ih (featureAdd acc g) (featureAdd_preserves acc g hinv)

/-- Witness for `featureList_add_invariant` on the specification's sort
scenario: `100..200`, then `source 1..300`, then `50..150`, then
`complement(75..125)`. -/
theorem featureList_add_invariant_witness :
    ((∀ f ∈ ([⟨"gene", .range 99 200 false false⟩, ⟨"source", .range 0 300 false false⟩,
        ⟨"gene", .range 49 150 false false⟩,
        ⟨"gene", .complement (.range 74 125 false false)⟩] : List Feature),
      mapDefB f.location 0 = true ∧ mapDefB f.location (lenLoc f.location - 1) = true)) ∧
    featureListInv (addAll [⟨"gene", .range 99 200 false false⟩,
      ⟨"source", .range 0 300 false false⟩, ⟨"gene", .range 49 150 false false⟩,
      ⟨"gene", .complement (.range 74 125 false false)⟩]) := by
  refine ⟨by decide, featureList_add_invariant _ (by decide)⟩

/-! ## The sequence-edit engine (Delete) -/

/-- A sequence as the edit engine sees it: the raw bytes and the feature
table. -/
structure Seq where
  data : List Char
  features : List Feature
deriving DecidableEq

/-- Modelled from the spec: `gts.Delete` — the sequence-edit operation
`Delete(seq, i, n)` (the sequence-edit file is not among the sources; only
its CLI caller is).  Following the spec's words literally: the bytes become
`seq[0..i] ++ seq[i+n..]`, each feature location undergoes
`Shift(i+n, −n)`, and features whose shift reports invalid are dropped. -/
def Delete (s : Seq) (i n : Nat) : Seq :=
  { data := s.data.take i ++ s.data.drop (i + n)
  , features := s.features.filterMap (fun f =>
      let r := Location.shiftLoc f.location ((i : Int) + (n : Int)) (-(n : Int))
      if r.2 then some { f with location := r.1 } else none) }

/-- Modelled from the spec, second reading: the same `Delete` but applying
`Shift(i, −n)` — under the spec's own Shift semantics (`Shift(o, m)` with
`m < 0` deletes the interval `[o, o+|m|)`) this is the call that deletes
`[i, i+n)`, and it is the reading forced by the spec's own Delete
example. -/
def deleteAtOffset (s : Seq) (i n : Nat) : Seq :=
  { data := s.data.take i ++ s.data.drop (i + n)
  , features := s.features.filterMap (fun f =>
      let r := Location.shiftLoc f.location (i : Int) (-(n : Int))
      if r.2 then some { f with location := r.1 } else none) }

/-- Claim C1 counterexample: On a sequence of length 20 with a feature at
`[5,15)`, the spec-literal `Delete(s, 6, 5)` (which shifts by
`Shift(i+n, −n) = Shift(11, −5)`) leaves the feature at `[5,15)` — not at
`[5,10)` as the claim asserts (the threshold `offset − amount = 16` exceeds
both endpoints, so neither moves). -/
theorem delete_shift_counterexample :
    (Delete ⟨List.replicate 20 'a', [⟨"gene", .range 5 15 false false⟩]⟩ 6 5).data.length
        = 15 ∧
    (Delete ⟨List.replicate 20 'a', [⟨"gene", .range 5 15 false false⟩]⟩ 6 5).features.map
        Feature.location = [.range 5 15 false false] ∧
    [Location.range 5 15 false false] ≠ [Location.range 5 10 false false] := by
  refine ⟨by decide, by decide, by decide⟩

/-- Claim C1 amended: `Delete(seq, i, n)` applies `Shift(i, −n)` to every
feature location; consequently, for a sequence of length 20 with a feature
at `[5,15)`, `Delete(s, 6, 5)` yields a sequence of length 15 whose feature
location is `[5,10)`. -/
theorem delete_shift_amended :
    (deleteAtOffset ⟨List.replicate 20 'a', [⟨"gene", .range 5 15 false false⟩]⟩ 6 5).data.length
        = 15 ∧
    (deleteAtOffset ⟨List.replicate 20 'a', [⟨"gene", .range 5 15 false false⟩]⟩ 6 5).features.map
        Feature.location = [.range 5 10 false false] := by
  refine ⟨by decide, by decide⟩

/-! ## The qualifier-name ordering of `FeatureFormatter.String` (claim C8)

`FeatureFormatter.String` iterates over the qualifier map (`for name :=
range ff.Feature.Qualifiers`) — Go map iteration order is unspecified, so
the iteration sequence is a parameter `iter` here.  The `order` map built
by `FeatureListParser` assigns each non-`translation` qualifier name its
first-occurrence position in the source (`order[q.Name] = len(order)`), so
it is represented by the list `os` of names in source order
(`order[name] = index of name in os`).  The formatter allocates
`ordered := make([]string, len(order))`, writes `ordered[index] = name`
for every name found in the order map, collects the rest into `remains`
(except `translation`, which sets a flag), deletes empty slots from
`ordered`, sorts `remains` with `sort.Strings`, and emits
`ordered ++ remains ++ [translation?]`. -/

/-- Go `ordered[index] = name` (in-bounds write; Go panics out of bounds, a
case the formatter never reaches because parser-built indices are
`< len(order)`). -/
def listSet : List String → Nat → String → List String
  | [], _, _ => []
  | _ :: t, 0, v => v :: t
  | h :: t, i + 1, v => h :: listSet t i v

/-- The order-map lookup `order[name]`: the index of `name` in the
source-order list. -/
def idxOf? (n : String) : List String → Option Nat
  | [] => none
  | h :: t => if h = n then some 0 else (idxOf? n t).map (· + 1)

/-- The mutable state of the name-collection loop of
`FeatureFormatter.String`. -/
structure FmtState where
  ordered : List String
  remains : List String
  hasT : Bool
deriving DecidableEq

/-- One iteration of the collection loop: a name in the order map is
written into its slot; `translation` sets the flag; anything else is
appended to `remains`. -/
def collectStep (os : List String) (st : FmtState) (name : String) : FmtState :=
  match idxOf? name os with
  | some i => { st with ordered := listSet st.ordered i name }
  | none =>
    if name = "translation" then { st with hasT := true }
    else { st with remains := st.remains ++ [name] }

/-- The collection loop over the qualifier names in map-iteration order
`iter`, starting from `ordered := make([]string, len(order))`. -/
def collectNames (os : List String) (iter : List String) : FmtState :=
  iter.foldl (collectStep os) ⟨List.replicate os.length "", [], false⟩

/-- The empty-slot deletion loop (`for i, name := range ordered { if name
== "" { ordered = append(ordered[:i], ordered[i+1:]...) } }`): the `range`
clause captures the original length `L0`, each read sees the current
backing array, and a deletion shifts the elements of `[i+1, cur)` left by
one within the backing (the element at `cur−1` is retained beyond the new
length).  When `i ≥ cur` the Go slice expression `ordered[i+1:]` panics; the
model returns the state unchanged there — the formatter claims below only
concern inputs on which the branch is unreachable. -/
def compactLoop (L0 : Nat) (i : Nat) (st : List String × Nat) : List String × Nat :=
  if _h : i < L0 then
    let backing := st.1
    let cur := st.2
    if backing.getD i "" = "" then
      if i + 1 ≤ cur then
        compactLoop L0 (i + 1)
          (backing.take i ++ ((backing.drop (i + 1)).take (cur - 1 - i)) ++
            backing.drop (cur - 1), cur - 1)
      else (backing, cur)
    else compactLoop L0 (i + 1) (backing, cur)
  else st
termination_by L0 - i

/-- Byte-wise lexicographic order on ASCII strings (the order of Go's
`sort.Strings`). -/
def charListLe : List Char → List Char → Bool
  | [], _ => true
  | _ :: _, [] => false
  | a :: as, b :: bs =>
    if a.toNat < b.toNat then true
    else if b.toNat < a.toNat then false
    else charListLe as bs

/-- The string order of `sort.Strings`. -/
def strLeP (a b : String) : Prop := charListLe a.data b.data = true

instance : DecidableRel strLeP := fun a b =>
  inferInstanceAs (Decidable (charListLe a.data b.data = true))

/-- The qualifier name sequence emitted by `FeatureFormatter.String`
(`sort.Strings` applied to `remains` is modelled by a sorting function; on
duplicate-free input — map keys are unique — every correct sort produces
this same list). -/
def formatQualifierNames (os : List String) (iter : List String) : List String :=
  let st := collectNames os iter
  let c := compactLoop os.length 0 (st.ordered, st.ordered.length)
  c.1.take c.2 ++ List.insertionSort strLeP st.remains ++
    (if st.hasT then ["translation"] else [])

/-- The runtime-added qualifier names: present in the map but not in the
source-order table and not `translation`. -/
def runtimeName (os : List String) (n : String) : Bool :=
  decide (n ∉ os) && decide (n ≠ "translation")

theorem idxOf?_eq_none {n : String} : ∀ {os : List String}, idxOf? n os = none → n ∉ os := by
  intro os
  induction os with
  | nil => intro _ h; cases h
  | cons h t ih =>
    rw [idxOf?]
    split_ifs with hh
    · intro hcon; cases hcon
    · intro hmap
      rw [Option.map_eq_none'] at hmap
      intro hmem
      rcases List.mem_cons.mp hmem with rfl | hmem
      · exact hh rfl
      · exact ih hmap hmem

theorem idxOf?_spec {n : String} : ∀ {os : List String} {i : Nat}, idxOf? n os = some i →
    i < os.length ∧ os.getD i "" = n := by
  intro os
  induction os with
  | nil => intro i h; cases h
  | cons h t ih =>
    intro i
    rw [idxOf?]
    split_ifs with hh
    · intro heq
      rw [Option.some.injEq] at heq
      subst heq
      exact ⟨by simp, hh⟩
    · intro hmap
      rw [Option.map_eq_some'] at hmap
      obtain ⟨j, hj, rfl⟩ := hmap
      obtain ⟨hjl, hjg⟩ := ih hj
      exact ⟨by simpa using hjl, hjg⟩

theorem idxOf?_mem {n : String} {os : List String} {i : Nat} (h : idxOf? n os = some i) :
    n ∈ os := by
  obtain ⟨hi, hget⟩ := idxOf?_spec h
  rw [← hget, List.getD_eq_getElem os "" hi]
  exact List.getElem_mem hi

/-- Writing the name stored at index `i` of a duplicate-free `os` into slot
`i` of a mapped copy updates exactly the entry for that name. -/
theorem listSet_map_nodup : ∀ (os : List String), os.Nodup →
    ∀ (i : Nat), i < os.length → ∀ (f : String → String) (v : String),
      os.getD i "" = v →
      listSet (os.map f) i v = os.map (fun m => if m = v then m else f m) := by
  intro os
  induction os with
  | nil => intro _ i hi; cases hi
  | cons h t ih =>
    intro hnodup i hi f v hv
    rw [List.nodup_cons] at hnodup
    cases i with
    | zero =>
      have hv0 : h = v := hv
      subst hv0
      rw [List.map_cons, listSet, List.map_cons]
      congr 1
      · rw [if_pos rfl]
      · refine (List.map_congr_left ?_).symm
        intro m hm
        rw [if_neg]
        intro hcon
        subst hcon
        exact hnodup.1 hm
    | succ j =>
      have hjl : j < t.length := by simpa using hi
      have hvs : t.getD j "" = v := hv
      rw [List.map_cons, listSet, List.map_cons]
      congr 1
      · rw [if_neg]
        intro hcon
        have hmem : t.getD j "" ∈ t := by
          rw [List.getD_eq_getElem t "" hjl]
          exact List.getElem_mem hjl
        rw [hvs, ← hcon] at hmem
        exact hnodup.1 hmem
      · exact ih hnodup.2 j hjl f v hvs

/-- The collection loop invariant: folding the remaining iteration
sequence keeps `ordered` equal to the partially filled copy of `os`,
appends the runtime names in iteration order to `remains`, and sets the
flag iff `translation` has been seen. -/
theorem collect_go (os : List String) (hnodup : os.Nodup) (hnt : "translation" ∉ os) :
    ∀ (it : List String) (g : String → Prop) [DecidablePred g]
      (rem : List String) (hT : Bool),
      List.foldl (collectStep os) ⟨os.map (fun m => if g m then m else ""), rem, hT⟩ it =
        ⟨os.map (fun m => if g m ∨ m ∈ it then m else ""),
         rem ++ it.filter (runtimeName os),
         hT || decide ("translation" ∈ it)⟩ := by
  intro it
  induction it with
  | nil =>
    intro g _ rem hT
    simp only [List.foldl_nil, List.not_mem_nil, or_false, List.filter_nil,
      List.append_nil, decide_False, Bool.or_false]
  | cons name rest ih =>
    intro g _ rem hT
    rw [List.foldl_cons]
    cases hidx : idxOf? name os with
    | some i =>
      obtain ⟨hi, hget⟩ := idxOf?_spec hidx
      have hnameos : name ∈ os := idxOf?_mem hidx
      rw [collectStep, hidx]
      dsimp only
      rw [listSet_map_nodup os hnodup i hi _ name hget]
      have hord : (os.map (fun m => if m = name then m else if g m then m else "")) =
          (os.map (fun m => if g m ∨ m = name then m else "")) := by
        refine List.map_congr_left ?_
        intro m _
        by_cases hc1 : m = name
        · rw [if_pos hc1, if_pos (Or.inr hc1)]
        · rw [if_neg hc1]
          by_cases hc2 : g m
          · rw [if_pos hc2, if_pos (Or.inl hc2)]
          · rw [if_neg hc2, if_neg (by tauto)]
      rw [hord, ih (fun m => g m ∨ m = name) rem hT]
      simp only [FmtState.mk.injEq]
      refine ⟨?_, ?_, ?_⟩
      · refine List.map_congr_left ?_
        intro m _
        refine if_congr ?_ rfl rfl
        simp only [List.mem_cons]
        tauto
      · rw [List.filter_cons, if_neg (by simp [runtimeName, hnameos])]
      · have htr : ("translation" ∈ name :: rest) ↔ ("translation" ∈ rest) := by
          simp only [List.mem_cons]
          constructor
          · rintro (hcase | hcase)
            · exact absurd (hcase ▸ hnameos) hnt
            · exact hcase
          · exact Or.inr
        simp [htr]
    | none =>
      have hnmem : name ∉ os := idxOf?_eq_none hidx
      rw [collectStep, hidx]
      dsimp only
      by_cases htrn : name = "translation"
      · rw [if_pos htrn, ih g rem true]
        simp only [FmtState.mk.injEq]
        refine ⟨?_, ?_, ?_⟩
        · refine List.map_congr_left ?_
          intro m hm
          refine if_congr ?_ rfl rfl
          have hmne : m ≠ name := fun hcon => hnmem (hcon ▸ hm)
          simp only [List.mem_cons]
          tauto
        · rw [List.filter_cons, if_neg (by simp [runtimeName, htrn])]
        · subst htrn
          simp
      · rw [if_neg htrn, ih g (rem ++ [name]) hT]
        simp only [FmtState.mk.injEq]
        refine ⟨?_, ?_, ?_⟩
        · refine List.map_congr_left ?_
          intro m hm
          refine if_congr ?_ rfl rfl
          have hmne : m ≠ name := fun hcon => hnmem (hcon ▸ hm)
          simp only [List.mem_cons]
          tauto
        · rw [List.filter_cons, if_pos (by simp [runtimeName, hnmem, htrn]),
            List.append_assoc, List.singleton_append]
        · have htr : ("translation" ∈ name :: rest) ↔ ("translation" ∈ rest) := by
            simp only [List.mem_cons]
            constructor
            · rintro (hcase | hcase)
              · exact absurd hcase.symm htrn
              · exact hcase
            · exact Or.inr
          simp [htr]

theorem collectNames_spec (os iter : List String) (hnodup : os.Nodup)
    (hnt : "translation" ∉ os) :
    collectNames os iter =
      ⟨os.map (fun m => if m ∈ iter then m else ""),
       iter.filter (runtimeName os),
       decide ("translation" ∈ iter)⟩ := by
  rw [collectNames]
  rw [show (List.replicate os.length "" : List String) =
      os.map (fun m => if (fun _ => False) m then m else "") by
    rw [show (fun m => if (fun _ => False) m then m else "") = (fun _ : String => "") by
      funext m
      rw [if_neg (fun h => h)]]
    rw [List.map_const']]
  rw [collect_go os hnodup hnt iter (fun _ => False) [] false]
  congr 1
  refine List.map_congr_left ?_
  intro m _
  by_cases h : m ∈ iter
  · rw [if_pos (Or.inr h), if_pos h]
  · rw [if_neg (by tauto), if_neg h]

/-- The empty-slot deletion loop does nothing when no slot is empty. -/
theorem compactLoop_id (L0 : Nat) (backing : List String)
    (h : ∀ k, k < L0 → backing.getD k "" ≠ "") (cur : Nat) :
    ∀ i, compactLoop L0 i (backing, cur) = (backing, cur) := by
  intro i
  generalize hd : L0 - i = d
  induction d using Nat.strong_induction_on generalizing i with
  | _ d ih =>
    subst hd
    rw [compactLoop]
    split_ifs with h1
    · dsimp only
      rw [if_neg (h i h1)]
      exact ih (L0 - (i + 1)) (by omega) (i + 1) rfl
    · rfl

theorem charListLe_total : ∀ a b : List Char, charListLe a b = true ∨ charListLe b a = true := by
  intro a
  induction a with
  | nil => intro b; exact Or.inl rfl
  | cons x as ih =>
    intro b
    cases b with
    | nil => exact Or.inr rfl
    | cons y bs =>
      rw [charListLe, charListLe]
      by_cases h1 : x.toNat < y.toNat
      · left
        rw [if_pos h1]
      · by_cases h2 : y.toNat < x.toNat
        · right
          rw [if_pos h2]
        · rw [if_neg h1, if_neg h2, if_neg h2, if_neg h1]
          exact ih bs

theorem charListLe_trans : ∀ a b c : List Char,
    charListLe a b = true → charListLe b c = true → charListLe a c = true := by
  intro a
  induction a with
  | nil => intro b c _ _; rfl
  | cons x as ih =>
    intro b c hab hbc
    cases b with
    | nil => cases hab
    | cons y bs =>
      cases c with
      | nil => cases hbc
      | cons z cs =>
        rw [charListLe] at hab hbc ⊢
        by_cases hxy : x.toNat < y.toNat
        · by_cases hyz : y.toNat < z.toNat
          · rw [if_pos (by omega)]
          · rw [if_neg hyz] at hbc
            by_cases hzy : z.toNat < y.toNat
            · rw [if_pos hzy] at hbc
              cases hbc
            · rw [if_pos (by omega)]
        · rw [if_neg hxy] at hab
          by_cases hyx : y.toNat < x.toNat
          · rw [if_pos hyx] at hab
            cases hab
          · rw [if_neg hyx] at hab
            by_cases hyz : y.toNat < z.toNat
            · rw [if_pos (by omega)]
            · rw [if_neg hyz] at hbc
              by_cases hzy : z.toNat < y.toNat
              · rw [if_pos hzy] at hbc
                cases hbc
              · rw [if_neg hzy] at hbc
                rw [if_neg (by omega), if_neg (by omega)]
                exact ih bs cs hab hbc

instance : IsTotal String strLeP :=
  ⟨fun a b => charListLe_total a.data b.data⟩

instance : IsTrans String strLeP :=
  ⟨fun a b c => charListLe_trans a.data b.data c.data⟩

/-- Claim C8: When a parsed feature (source-order table `os`, qualifier-name
set iterated in some order `iter`, where the parsed names are all still
present) is formatted, the names recorded in the source-order table are
emitted first in source order, the runtime-added names follow in ascending
alphabetical (byte-lexicographic) order, and `translation`, when present,
is emitted last regardless of its position in `iter`. -/
theorem formatter_qualifier_order (os iter : List String)
    (h1 : os.Nodup) (h2 : iter.Nodup) (hsub : ∀ n ∈ os, n ∈ iter)
    (hne : ∀ n ∈ os, n ≠ "") (hnt : "translation" ∉ os) :
    formatQualifierNames os iter =
      os ++ List.insertionSort strLeP (iter.filter (runtimeName os)) ++
        (if "translation" ∈ iter then ["translation"] else []) ∧
    List.Sorted strLeP (List.insertionSort strLeP (iter.filter (runtimeName os))) ∧
    (List.insertionSort strLeP (iter.filter (runtimeName os))).Perm
      (iter.filter (runtimeName os)) := by
  refine ⟨?_, List.sorted_insertionSort strLeP _, List.perm_insertionSort strLeP _⟩
  rw [formatQualifierNames, collectNames_spec os iter h1 hnt]
  dsimp only
  have hmapid : os.map (fun m => if m ∈ iter then m else "") = os := by
    rw [show os = os.map id from (List.map_id os).symm]
    conv_lhs => rw [List.map_map]
    refine List.map_congr_left ?_
    intro m hm
    simp only [Function.comp, id]
    rw [if_pos (hsub m hm)]
  rw [hmapid]
  rw [compactLoop_id os.length os (fun k hk => by
    intro hcon
    have : os.getD k "" ∈ os := by
      rw [List.getD_eq_getElem os "" hk]
      exact List.getElem_mem hk
    exact hne _ this hcon) os.length 0]
  dsimp only
  rw [List.take_length]
  by_cases hP : ("translation" ∈ iter)
  · rw [if_pos (decide_eq_true hP), if_pos hP]
  · rw [if_neg (by simpa using hP), if_neg hP]

/-- Witness for `formatter_qualifier_order`: source-order names
`["gene", "note"]`, map iteration order `["translation", "zzz", "note",
"gene", "abc"]`. -/
theorem formatter_qualifier_order_witness :
    formatQualifierNames ["gene", "note"] ["translation", "zzz", "note", "gene", "abc"] =
      ["gene", "note"] ++
        List.insertionSort strLeP
          (["translation", "zzz", "note", "gene", "abc"].filter
            (runtimeName ["gene", "note"])) ++
        (if "translation" ∈ ["translation", "zzz", "note", "gene", "abc"]
          then ["translation"] else []) :=
  (formatter_qualifier_order ["gene", "note"] ["translation", "zzz", "note", "gene", "abc"]
    (by decide) (by decide) (by decide) (by decide) (by decide)).1

end Gts
